import Mathlib

/-!
Verification of the skeleton-walking core of RivGraph (`rivgraph/walk.py`)
against its natural-language specification.

The Python module is shallowly embedded below.  Raster images are modelled as
row-major flat `Bool` grids, link/node "databases" as parallel lists exactly
mirroring the `links` / `nodes` dictionaries of the source, and the
`links2do` OrderedSet as an insertion-ordered duplicate-free list.  Fallible
Python operations (`list.index`, `set.remove`, unbound locals) are modelled
with `Option`; unbounded `while` loops and self-recursion are modelled with
explicit fuel.  Functions of `rivgraph.im_utils` / `rivgraph.ln_utils` are not
part of the analysed source file; they are modelled from the specification and
are marked `Modelled from the spec` in their doc comments.
-/

namespace RivGraph

/-! ## Basic list helpers mirroring Python builtins -/

/-- Maximum of a list of naturals (Python `max`).  Python raises on an empty
list; every use below is guarded by nonemptiness, where `0` is never hit. -/
def listMax (l : List Nat) : Nat := l.foldr max 0

/-- Minimum of a list of naturals (Python `min`).  Python raises on an empty
list; every use below is guarded by nonemptiness. -/
def listMin (l : List Nat) : Nat :=
  match l with
  | [] => 0
  | x :: xs => xs.foldr min x

/-- Candidates of `l` attaining the maximal value of `f`: models the Python
idiom `[x for x, v in zip(l, map) if v == max(map)]` used twice in the
singleton-disambiguation block of `isbp_parsimonious`. -/
def argmaxList (l : List Nat) (f : Nat → Nat) : List Nat :=
  l.filter (fun v => f v == listMax (l.map f))

/-! ## `idcs_no_turnaround` (walk.py lines 200-248) -/

/-- Embeds `idcs_no_turnaround` from walk.py.  `idcs` is the ordered chain of
resolved pixel indices (the source consults `idcs[0]`, `idcs[1]` and
`idcs[-1]` only) and `ncols` is `Iskel.shape[1]`.  Indices are modelled as
`Int` so the negative up-move offsets are exact.  When the displacement
between the first two indices matches none of the eight directional cases the
Python code leaves `walkdirs` unbound and raises `NameError`, modelled by
`none`. -/
def idcs_no_turnaround (idcs : List Int) (ncols : Int) : Option (List Int) :=
  let idxdif := idcs.getD 0 0 - idcs.getD 1 0
  let walkdirs : Option (List Int) :=
    if idxdif = -ncols - 1 then some [1, ncols, ncols + 1]
    else if idxdif = -ncols then some [ncols - 1, ncols, ncols + 1]
    else if idxdif = -ncols + 1 then some [-1, ncols - 1, ncols]
    else if idxdif = -1 then some [-ncols + 1, 1, ncols + 1]
    else if idxdif = 1 then some [-ncols - 1, -1, -ncols - 1]
    else if idxdif = ncols - 1 then some [-ncols, -ncols + 1, 1]
    else if idxdif = ncols then some [-ncols - 1, -ncols, -ncols + 1]
    else if idxdif = ncols + 1 then some [-1, -ncols - 1, -ncols]
    else none
  walkdirs.map (fun wd => wd.map (fun w => idcs.getLastD 0 + w))

/-! ## Singleton disambiguation block of `isbp_parsimonious`
(walk.py lines 657-670) -/

/-- Embeds the singleton-candidate disambiguation block of
`isbp_parsimonious` (walk.py lines 657-670), factored as a function of the
singleton candidate list `bpsolo` and the raveled metric images `inar`
(naxes-connectivity) and `infr` (4-connectivity), which is exactly the data
the block reads.  Returns the selected branchpoint pixel (the Python block
wraps it in one or two list layers, which downstream code flattens). -/
def singleton_pick (bpsolo : List Nat) (inar infr : Nat → Nat) : Nat :=
  let maxnax := argmaxList bpsolo inar
  if maxnax.length = 1 then maxnax.headD 0
  else
    let maxfourAll := argmaxList bpsolo infr
    if maxfourAll.length = 1 then maxfourAll.headD 0
    else listMin (argmaxList maxnax infr)

/-- The singleton-candidate selection rule as claim C2 states it: highest
`naxes`; ties broken by highest `nfour` among the max-naxes candidates only;
remaining ties by smallest pixel index.  Written from the claim's words, to be
compared with `singleton_pick`, which is written from the source. -/
def singleton_pick_claimed (bpsolo : List Nat) (inar infr : Nat → Nat) : Nat :=
  listMin (argmaxList (argmaxList bpsolo inar) infr)

/-- Concrete naxes-connectivity image for the C2 counterexample. -/
def c2Inar : Nat → Nat := fun n =>
  if n = 0 then 2 else if n = 1 then 2 else if n = 2 then 1 else 0

/-- Concrete 4-connectivity image for the C2 counterexample. -/
def c2Infr : Nat → Nat := fun n =>
  if n = 0 then 1 else if n = 1 then 0 else if n = 2 then 4 else 0

/-! ## Link and node collections (the `links` / `nodes` dicts) -/

/-- The `links` dictionary of walk.py: parallel lists `id` (link ids), `idx`
(ordered pixel chains) and `conn` (positions within `nodes.idx` of the
connected nodes, filled incrementally). -/
structure Links where
  id : List Nat
  idx : List (List Nat)
  conn : List (List Nat)
deriving DecidableEq

/-- The `nodes` dictionary of walk.py: parallel lists `idx` (node pixel
indices) and `conn` (lists of incident link ids). -/
structure Nodes where
  idx : List Nat
  conn : List (List Nat)
deriving DecidableEq

/-- Position of the first occurrence of `x` in `l`: Python's fallible
`list.index`, with the `ValueError` on a missing element modelled by
`none`. -/
def pyIndex (l : List Nat) (x : Nat) : Option Nat :=
  match l with
  | [] => none
  | y :: ys => if y = x then some 0 else (pyIndex ys x).map (· + 1)

/-- Id-keyed lookup into one of the parallel value lists: models the
pervasive source idiom `vals[ids.index(x)]`. -/
def assocAt (ids : List Nat) (vals : List (List Nat)) (x : Nat) :
    Option (List Nat) :=
  (pyIndex ids x).bind fun i => vals.get? i

/-- Pixel chain of link `lid` (`links['idx'][links['id'].index(lid)]`). -/
def chainOf (links : Links) (lid : Nat) : Option (List Nat) :=
  assocAt links.id links.idx lid

/-- Connection pair of link `lid` (`links['conn'][links['id'].index(lid)]`). -/
def connOf (links : Links) (lid : Nat) : Option (List Nat) :=
  assocAt links.id links.conn lid

/-- In-place update of the `i`-th entry of a list of lists: models Python's
mutation of `nodes['conn'][ni]`. -/
def modAt (i : Nat) (f : List Nat → List Nat) :
    List (List Nat) → List (List Nat)
  | [] => []
  | c :: cs =>
    match i with
    | 0 => f c :: cs
    | i + 1 => c :: modAt i f cs

/-- Models the Python loop `for ni in nodeidx: nodes['conn'][ni].remove(linkid)`
from `delete_link`: `list.remove` raises when `linkid` is absent and the
indexing raises when `ni` is out of range, both modelled by `none`. -/
def removeLinkFromNodes : List Nat → Nat → List (List Nat) →
    Option (List (List Nat))
  | [], _, conns => some conns
  | ni :: rest, linkid, conns =>
    if ni < conns.length ∧ linkid ∈ conns.getD ni [] then
      removeLinkFromNodes rest linkid (modAt ni (fun c => c.erase linkid) conns)
    else none

/-- Embeds `delete_link` (walk.py lines 412-453): pops the link's chain and
connection pair at its id's position, removes the id, and removes the id from
the connectivity list of every node in the popped connection pair.  Python's
fallible `index` / `pop` / `remove` calls are modelled by `none`. -/
def delete_link (linkid : Nat) (links : Links) (nodes : Nodes) :
    Option (Links × Nodes) :=
  (pyIndex links.id linkid).bind fun lid =>
    if lid < links.idx.length ∧ lid < links.conn.length then
      (removeLinkFromNodes (links.conn.getD lid []) linkid nodes.conn).map
        fun conns =>
          (⟨links.id.erase linkid, links.idx.eraseIdx lid,
            links.conn.eraseIdx lid⟩,
           ⟨nodes.idx, conns⟩)
    else none

/-- Concrete link collection for the C10 witness. -/
def c10Links : Links := ⟨[7, 9], [[1, 2, 3], [3, 4, 5]], [[0, 1], [1, 0]]⟩

/-- Concrete node collection for the C10 witness. -/
def c10Nodes : Nodes := ⟨[1, 3], [[7, 9], [7, 9]]⟩

/-! ## `check_dup_links` (walk.py lines 456-518) -/

/-- Boolean set-equality of two index lists: models the Python comparison
`set(a) == set(b)`. -/
def eqAsSets (a b : List Nat) : Bool :=
  a.all (· ∈ b) && b.all (· ∈ a)

/-- The last two pixels of a chain (Python `chain[-2:]`). -/
def lastTwo (l : List Nat) : List Nat := l.drop (l.length - 2)

/-- The first two pixels of a chain (Python `chain[:2]`). -/
def firstTwo (l : List Nat) : List Nat := l.take 2

/-- The deletion loop of `check_dup_links`: for each candidate link id, the
candidate is deleted when its first two pixels equal, as a set, the current
link's last two pixels (`set(link[-2:]) == set(...[:2])` in the source); a
deleted id is also discarded from `links2do`, where the source's
`try/except pass` makes the removal a no-op when the id is not queued. -/
def dupDeleteLoop (link : List Nat) : List Nat → Links → Nodes → List Nat →
    Option (Links × Nodes × List Nat)
  | [], links, nodes, links2do => some (links, nodes, links2do)
  | lid :: rest, links, nodes, links2do =>
    (chainOf links lid).bind fun other =>
      if eqAsSets (lastTwo link) (firstTwo other) then
        (delete_link lid links nodes).bind fun p =>
          dupDeleteLoop link rest p.1 p.2 (links2do.erase lid)
      else dupDeleteLoop link rest links nodes links2do

/-- Embeds `check_dup_links` (walk.py lines 456-518): after link `linkid` has
resolved its second endpoint node, every other link incident on that node
whose first-two-pixel set equals the current link's last-two-pixel set is
deleted and de-queued.  Python's fallible `index` / subscript / `set.remove`
operations are modelled by `none`; the iteration order of the Python set
`nconn` is modelled as first-occurrence order of the node's connectivity
list. -/
def check_dup_links (linkid : Nat) (links : Links) (nodes : Nodes)
    (links2do : List Nat) : Option (Links × Nodes × List Nat) :=
  (pyIndex links.id linkid).bind fun linkidx =>
    (links.idx.get? linkidx).bind fun link =>
      ((links.conn.getD linkidx []).get? 1).bind fun lconn =>
        (nodes.conn.get? lconn).bind fun nconnRaw =>
          if linkid ∈ nconnRaw.dedup then
            dupDeleteLoop link (nconnRaw.dedup.erase linkid) links nodes
              links2do
          else none

/-- Concrete link collection for the C3 counterexample: link 2 ends, as a
set, with the same two pixels `{6, 7}` as link 1, but starts with `[9, 8]`. -/
def c3Links : Links := ⟨[1, 2], [[5, 6, 7], [9, 8, 6, 7]], [[0, 0], [0, 0]]⟩

/-- Concrete node collection for the C3 counterexample. -/
def c3Nodes : Nodes := ⟨[7], [[1, 2]]⟩

/-- Concrete link collection for the C3 amended-theorem witness: pending link
2 starts with pixels `[7, 6]`, duplicating resolved link 1's terminal pixel
set `{6, 7}`. -/
def c3dLinks : Links := ⟨[1, 2], [[5, 6, 7], [7, 6, 9]], [[0, 0], [0]]⟩

/-- Concrete node collection for the C3 amended-theorem witness. -/
def c3dNodes : Nodes := ⟨[7], [[1, 2]]⟩

/-- Expected surviving link collection of the C3 amended-theorem witness. -/
def cdLinksAfter : Links := ⟨[1], [[5, 6, 7]], [[0, 0]]⟩

/-- Expected node collection of the C3 amended-theorem witness. -/
def cdNodesAfter : Nodes := ⟨[7], [[1]]⟩

/-! ## Raster images and neighbour finders -/

/-- A binary raster in row-major flat addressing (`Iskel` and the binary
local windows of the source). -/
structure Img where
  rows : Nat
  cols : Nat
  data : List Bool
deriving DecidableEq

/-- Pixel value at flat index `p` (`False` outside the data). -/
def Img.get (I : Img) (p : Nat) : Bool := I.data.getD p false

/-- Number of pixels of the raster. -/
def Img.npix (I : Img) : Nat := I.rows * I.cols

/-- The eight 8-connected row/column offsets, in row-major scan order. -/
def neighborOffsets : List (Int × Int) :=
  [(-1, -1), (-1, 0), (-1, 1), (0, -1), (0, 1), (1, -1), (1, 0), (1, 1)]

/-- Modelled from the spec: the Raster Neighbor Finder (§4.1) with the §3
offset table — all in-bounds 8-connected neighbours of flat index `p`
(excluding `p` itself) whose pixel is on, in row-major order.  Stands for
`im_utils.get_array` + `im_utils.neighbors_flat` +
`im_utils.reglobalize_flat_idx` as composed by `get_neighbors` (walk.py
lines 375-409); those helpers are not part of the analysed file. -/
def onNeighbors (I : Img) (p : Nat) : List Nat :=
  let r : Int := (p / I.cols : Nat)
  let c : Int := (p % I.cols : Nat)
  neighborOffsets.filterMap fun d =>
    let nr := r + d.1
    let nc := c + d.2
    if 0 ≤ nr ∧ nr < (I.rows : Int) ∧ 0 ≤ nc ∧ nc < (I.cols : Int) then
      let q := nr.toNat * I.cols + nc.toNat
      if I.get q then some q else none
    else none

/-- Embeds `walkable_neighbors` (walk.py lines 340-372): the on neighbours of
the link's end pixel, minus the link's own last two pixels. -/
def walkable_neighbors (link : List Nat) (I : Img) : List Nat :=
  (onNeighbors I (link.getLastD 0)).filter fun n => !(lastTwo link).elem n

/-- Modelled from the spec: `im_utils.four_conn` — the 4-connected on
neighbours (horizontal and vertical steps only) of a pixel; §4.5 walks these
before diagonal emanators. -/
def fourConnNeighbors (I : Img) (p : Nat) : List Nat :=
  (onNeighbors I p).filter fun q =>
    (q / I.cols == p / I.cols &&
      (q % I.cols + 1 == p % I.cols || p % I.cols + 1 == q % I.cols)) ||
    (q % I.cols == p % I.cols &&
      (q / I.cols + 1 == p / I.cols || p / I.cols + 1 == q / I.cols))

/-- Modelled from the spec: `im_utils.edge_coords(shape, dtype='flat')` — a
membership test for the flat indices of the image border pixels (§4.5 stops a
chain when its single continuation lies on the analysis-window border). -/
def edgeCoords (I : Img) (p : Nat) : Bool :=
  p / I.cols == 0 || p / I.cols == I.rows - 1 ||
  p % I.cols == 0 || p % I.cols == I.cols - 1

/-! ## Sorted duplicate-free lists standing for Python sets -/

/-- Insert into an ascending duplicate-free list.  Pixel-index sets of the
source are modelled this way so that `set.pop` (arbitrary order in Python) is
deterministically the least element. -/
def sinsert (x : Nat) : List Nat → List Nat
  | [] => [x]
  | y :: ys =>
    if x < y then x :: y :: ys
    else if x = y then y :: ys
    else y :: sinsert x ys

/-- Set union on the sorted-list model. -/
def sunion (a b : List Nat) : List Nat := a.foldr sinsert b

/-- Ascending duplicate-free normal form: models building a Python set from
an iterable. -/
def toSet (l : List Nat) : List Nat := l.foldr sinsert []

/-! ## `isbp_walk_for_bps` (walk.py lines 709-780) -/

/-- State of the `isbp_walk_for_bps` traversal: found branchpoints, visited
pixels, the 4-connected priority pool and the pending emanator pool, each a
Python set in the source. -/
structure WalkState where
  bpi : List Nat
  walked : List Nat
  doFirst : List Nat
  emanators : List Nat
deriving DecidableEq

/-- The unvisited on neighbours of a pixel: `neighs = set(neighbors) - walked`
inside the chain loop of `isbp_walk_for_bps`. -/
def unvisitedNeighbors (I : Img) (idx : Nat) (walked : List Nat) : List Nat :=
  (onNeighbors I idx).filter fun n => !walked.elem n

/-- One chain walk of `isbp_walk_for_bps` (the inner `while walking` loop,
walk.py lines 757-778), fuelled: each iteration visits `idx`, collects its
unvisited neighbours, and either stops (none left, or the single continuation
lies on the window border), follows the single continuation, or records `idx`
as a branchpoint, promotes its 4-connected unvisited neighbours, enqueues the
rest, and loops once more on the same pixel (which the source then finds
fully visited).  Fuel exhaustion returns the current state. -/
def walkChain (I : Img) : Nat → Nat → WalkState → WalkState
  | 0, _, st => st
  | fuel + 1, idx, st =>
    if (unvisitedNeighbors I idx (sinsert idx st.walked)).length = 0 then
      { st with walked := sinsert idx st.walked }
    else if (unvisitedNeighbors I idx (sinsert idx st.walked)).length = 1 then
      if edgeCoords I
          ((unvisitedNeighbors I idx (sinsert idx st.walked)).headD 0) then
        { st with walked := sinsert idx st.walked }
      else
        walkChain I fuel
          ((unvisitedNeighbors I idx (sinsert idx st.walked)).headD 0)
          { st with walked := sinsert idx st.walked }
    else
      walkChain I fuel idx
        { bpi := sinsert idx st.bpi,
          walked := sunion (unvisitedNeighbors I idx (sinsert idx st.walked))
            (sinsert idx st.walked),
          doFirst := sunion
            ((fourConnNeighbors I idx).filter fun f =>
              (unvisitedNeighbors I idx (sinsert idx st.walked)).elem f)
            st.doFirst,
          emanators := sunion
            (unvisitedNeighbors I idx (sinsert idx st.walked))
            st.emanators }

/-- The outer emanator loop of `isbp_walk_for_bps` (walk.py lines 749-755),
fuelled: while the emanator pool is nonempty, pop from the 4-connected
priority pool first (also discharging the popped pixel from the emanator
pool, as the source does), else pop an emanator; each popped pixel seeds one
chain walk.  Fuel exhaustion returns the current state. -/
def walkOuter (I : Img) : Nat → WalkState → WalkState
  | 0, st => st
  | fuel + 1, st =>
    match st.emanators with
    | [] => st
    | e :: erest =>
      match st.doFirst with
      | d :: drest =>
        walkOuter I fuel (walkChain I (I.npix * 2 + 2) d
          { st with doFirst := drest, emanators := st.emanators.erase d })
      | [] =>
        walkOuter I fuel (walkChain I (I.npix * 2 + 2) e
          { st with emanators := erest })

/-- Embeds `isbp_walk_for_bps` (walk.py lines 709-780), fuelled: seeds the
branchpoint set, gathers the seeds' neighbours as emanators (4-connected ones
prioritised), marks seeds and emanators as visited, and runs the outer
emanator loop. -/
def isbp_walk_for_bps (I : Img) (bpi0 : List Nat) : List Nat :=
  (walkOuter I (I.npix * 2 + 2)
    ⟨toSet bpi0,
     sunion (toSet bpi0)
       ((toSet bpi0).foldr (fun bp acc => sunion (onNeighbors I bp) acc) []),
     (toSet bpi0).foldr (fun bp acc => sunion (fourConnNeighbors I bp) acc) [],
     (toSet bpi0).foldr (fun bp acc => sunion (onNeighbors I bp) acc) []⟩).bpi

/-- A 3-by-3 test raster with a horizontal path on its middle row. -/
def pathImg3 : Img :=
  ⟨3, 3, [false, false, false, true, true, true, false, false, false]⟩

/-! ## Generic reachability closure over a Boolean adjacency

Connected-component membership (`skimage.measure.label` on the 4-connected
over-connected component, and the 8-connected blobs of
`im_utils.largest_blobs`) is expressed through a saturating growth
iteration. -/

/-- One growth step: append every index below `npix` that is adjacent to a
member and not yet present. -/
def growStep (adj : Nat → Nat → Bool) (npix : Nat) (l : List Nat) : List Nat :=
  l ++ (List.range npix).filter
    (fun b => !l.elem b && l.any (fun a => adj a b))

/-- `k` growth steps. -/
def iterGrow (adj : Nat → Nat → Bool) (npix : Nat) : Nat → List Nat → List Nat
  | 0, l => l
  | k + 1, l => growStep adj npix (iterGrow adj npix k l)

/-- Reachability closure from a seed list: `npix` growth steps saturate
(there are only `npix` candidate pixels). -/
def closure (adj : Nat → Nat → Bool) (npix : Nat) (seed : List Nat) :
    List Nat :=
  iterGrow adj npix npix (toSet seed)

/-! ## The `is_bp` pipeline (walk.py lines 521-611) -/

/-- Modelled from the spec: `im_utils.im_connectivity` — the raw 8-neighbour
count (`conn`) of each on pixel; 0 for off pixels (§4.3 step 5). -/
def imConn (I : Img) (p : Nat) : Nat :=
  if I.get p then (onNeighbors I p).length else 0

/-- 4-adjacency (one horizontal or vertical step) of flat indices at width
`cols`. -/
def adj4 (cols p q : Nat) : Bool :=
  (p / cols == q / cols &&
    (p % cols + 1 == q % cols || q % cols + 1 == p % cols)) ||
  (p % cols == q % cols &&
    (p / cols + 1 == q / cols || q / cols + 1 == p / cols))

/-- 8-adjacency (row and column each differing by at most one, not equal) of
flat indices at width `cols`. -/
def adj8 (cols p q : Nat) : Bool :=
  (p / cols == q / cols || p / cols + 1 == q / cols ||
    q / cols + 1 == p / cols) &&
  (p % cols == q % cols || p % cols + 1 == q % cols ||
    q % cols + 1 == p % cols) &&
  !(p == q)

/-- Adjacency underlying `measure.label(Ict, background=0, connectivity=1)`:
a 4-connected step between two in-range over-connected pixels. -/
def adjIct (I : Img) (p q : Nat) : Bool :=
  decide (q < I.npix) && decide (2 < imConn I p) && decide (2 < imConn I q) &&
    adj4 I.cols p q

/-- Adjacency underlying the 8-connected blobs of `im_utils.largest_blobs`:
an 8-connected step between two in-range on pixels. -/
def adjOn (I : Img) (p q : Nat) : Bool :=
  decide (p < I.npix) && decide (q < I.npix) && I.get p && I.get q &&
    adj8 I.cols p q

/-- The pixels labelled like `centidx` by
`measure.label(Ict, connectivity=1)`: the 4-connected over-connected
component of `cent` when `cent` is over-connected, else the background. -/
def sameLabel (I : Img) (cent p : Nat) : Bool :=
  if 2 < imConn I cent then (closure (adjIct I) I.npix [cent]).elem p
  else !(decide (2 < imConn I p))

/-- The pixels of `np.where(Ilab == Ilab[centidx])`, ascending (the source
consumes them as the row and column arrays `cpy`, `cpx`). -/
def sameLabelList (I : Img) (cent : Nat) : List Nat :=
  (List.range I.npix).filter (sameLabel I cent)

/-- Row coordinates of a pixel list (`cpy`). -/
def rowsOf (I : Img) (l : List Nat) : List Nat := l.map (· / I.cols)

/-- Column coordinates of a pixel list (`cpx`). -/
def colsOf (I : Img) (l : List Nat) : List Nat := l.map (· % I.cols)

/-- The cropping of `is_bp` (walk.py lines 576-579): zero every row before
`min(cpy)-1` or after `max(cpy)+1` and every column outside
`[min(cpx)-1, max(cpx)+1]`.  Subtraction is truncated at 0; the Python
slices would wrap for `min = 0`, a case the adaptive window growth excludes
(the theorems below carry it as a hypothesis). -/
def cropImg (I : Img) (rmin rmax cmin cmax : Nat) : Img :=
  ⟨I.rows, I.cols,
   (List.range (I.rows * I.cols)).map fun p =>
     if p / I.cols < rmin - 1 ∨ rmax + 2 ≤ p / I.cols ∨
        p % I.cols < cmin - 1 ∨ cmax + 2 ≤ p % I.cols then false
     else I.get p⟩

/-- The crop of the window around the labelled component of `cent`. -/
def bpCropped (I : Img) (cent : Nat) : Img :=
  cropImg I (listMin (rowsOf I (sameLabelList I cent)))
    (listMax (rowsOf I (sameLabelList I cent)))
    (listMin (colsOf I (sameLabelList I cent)))
    (listMax (colsOf I (sameLabelList I cent)))

/-- The 8-connected blob of `p` among the on pixels of `I`. -/
def comp8 (I : Img) (p : Nat) : List Nat := closure (adjOn I) I.npix [p]

/-- Size of the largest 8-connected blob of `I`. -/
def maxBlobSize (I : Img) : Nat :=
  listMax (((List.range I.npix).filter (fun p => I.get p)).map
    (fun p => (comp8 I p).length))

/-- Modelled from the spec: `im_utils.largest_blobs(I, 1, 'keep')` — keep
only the largest 8-connected blob of on pixels (§4.3 step 3); on a tie the
source keeps one blob by an unspecified ordering, which no theorem below
relies on, so a tied pixel is kept here exactly when its blob attains the
maximal size. -/
def blobKeep (I : Img) (p : Nat) : Bool :=
  I.get p && decide ((comp8 I p).length = maxBlobSize I)

/-- The image `I` of `is_bp` after cropping and largest-blob filtering
(walk.py line 582), on which `naxes_connectivity` and `nfour_connectivity`
are evaluated. -/
def bpKeptImg (I : Img) (cent : Nat) : Img :=
  ⟨I.rows, I.cols,
   (List.range (I.rows * I.cols)).map (blobKeep (bpCropped I cent))⟩

/-- The connectivity-image cleanup of `is_bp` (walk.py lines 585-586): the
connectivity of an over-connected pixel outside the centre's labelled
component is set to 1, and every pixel not kept by the crop-and-largest-blob
filter is zeroed. -/
def cleanIc (I : Img) (cent : Nat) (p : Nat) : Nat :=
  if !(blobKeep (bpCropped I cent) p) then 0
  else if !(sameLabel I cent p) && decide (2 < imConn I p) then 1
  else imConn I p

/-- Number of over-connected pixels of a connectivity image
(`np.sum(Ic > 2)`). -/
def overCount (f : Nat → Nat) (npix : Nat) : Nat :=
  ((List.range npix).filter (fun p => decide (2 < f p))).length

/-- Embeds `naxes_connectivity` (walk.py lines 783-833): for every interior
on pixel, the number of connectivity axes (horizontal, vertical and the two
diagonals) on which it has at least one on neighbour; 0 elsewhere (edge
pixels are excluded by the source before the loop). -/
def naxes_connectivity (I : Img) (p : Nat) : Nat :=
  if I.get p && !edgeCoords I p then
    (if I.get (p + 1) || I.get (p - 1) then 1 else 0) +
    (if I.get (p + I.cols) || I.get (p - I.cols) then 1 else 0) +
    (if I.get (p + 1 + I.cols) || I.get (p - 1 - I.cols) then 1 else 0) +
    (if I.get (p - 1 + I.cols) || I.get (p + 1 - I.cols) then 1 else 0)
  else 0

/-- Modelled from the spec: `im_utils.nfour_connectivity` — the number of
4-connected on neighbours of each on pixel (§4.3 step 5); 0 for off
pixels. -/
def nfour_connectivity (I : Img) (p : Nat) : Nat :=
  if I.get p then (fourConnNeighbors I p).length else 0

/-- Modelled from the spec / documented `scipy.stats.mode` behaviour: the
most frequent value of a list, the smallest on ties (scipy reports the
smallest mode); 0 on the empty list, on which scipy would error. -/
def modeOf (l : List Nat) : Nat :=
  listMin (argmaxList (toSet l) (fun v => l.count v))

/-- The binary walk image `np.array(Ic, dtype=bool)` of `isbp_parsimonious`:
on where the cleaned connectivity is nonzero. -/
def icImg (rows cols : Nat) (ic : Nat → Nat) : Img :=
  ⟨rows, cols, (List.range (rows * cols)).map (fun p => decide (ic p ≠ 0))⟩

/-- Embeds `isbp_parsimonious` (walk.py lines 614-706) over the cleaned
connectivity image `ic` of shape `rows × cols` and the raveled metric images
`inar`, `infr`.  Python set enumerations are modelled ascending; `min` on an
empty count list (no over-connected interior pixel and no forced pattern)
raises in Python and is `none` here.  The singleton branch wraps its pick in
one or two list layers in the source; downstream only membership of the
chosen pixel is consumed, so the pick is returned unwrapped. -/
def isbp_parsimonious (rows cols : Nat) (ic inar infr : Nat → Nat) :
    Option (List Nat) :=
  let shapeImg := icImg rows cols ic
  let npix := rows * cols
  let bpPoss := (List.range npix).filter
    (fun p => decide (2 < ic p) && !edgeCoords shapeImg p)
  let bpsave := bpPoss.map (fun bpi => isbp_walk_for_bps shapeImg [bpi])
  let bpcounts := bpsave.map List.length
  let bpsolo := (bpsave.filter (fun b => b.length = 1)).map
    (fun b => b.headD 0)
  if bpsolo ≠ [] then some [singleton_pick bpsolo inar infr]
  else
    let keepvals : List (List Nat) :=
      [[6, 4, 2], [5, 3, 1], [5, 3, 4], [3, 3, 2], [3, 3, 1], [4, 2, 4]]
    let bpMust0 := keepvals.foldr
      (fun kv acc =>
        acc ++ (List.range npix).filter
          (fun p => ic p == kv.getD 0 0 && inar p == kv.getD 1 0 &&
            infr p == kv.getD 2 0)) []
    let keeps442 := (List.range npix).filter
      (fun p => ic p == 4 && inar p == 4 && infr p == 2)
    let bpMust := if keeps442.length = 2
      then bpMust0 ++ [keeps442.headD 0] else bpMust0
    if bpMust ≠ [] then some (isbp_walk_for_bps shapeImg bpMust)
    else if bpcounts = [] then none
    else
      let mincount := listMin bpcounts
      let minidcs := (List.range bpcounts.length).filter
        (fun i => bpcounts.getD i 0 == mincount)
      if minidcs.length = 1 then some (bpsave.getD (minidcs.headD 0) [])
      else some (isbp_walk_for_bps shapeImg
        [modeOf (bpsave.foldr (fun b acc => b ++ acc) [])])

/-- Modelled from the spec: `im_utils.get_array(idx, I, size)` — extract the
`sr × sc` window nominally centred on `idx`, shifted inward near the raster
edges ("automatic offset correction", §4.1), together with its row and
column offsets. -/
def get_array (idx : Nat) (I : Img) (sr sc : Nat) : Img × Nat × Nat :=
  let roff := min (idx / I.cols - (sr - 1) / 2) (I.rows - sr)
  let coff := min (idx % I.cols - (sc - 1) / 2) (I.cols - sc)
  (⟨sr, sc,
    (List.range (sr * sc)).map
      (fun p => I.get ((p / sc + roff) * I.cols + (p % sc + coff)))⟩,
   roff, coff)

/-- The adaptive window growth of `is_bp` (walk.py lines 553-571), fuelled:
grow the window by 4 rows whenever a component column index touches
`1` or `size[0]-2`, and by 4 columns whenever a component row index touches
`1` or `size[1]-2` (the transposed comparison is the source's, reproduced
as-is), until the labelled component is enclosed with a buffer. -/
def bpWindowGrow (idx : Nat) (Iskel : Img) :
    Nat → Nat × Nat → Option (Img × Nat × Nat)
  | 0, _ => none
  | fuel + 1, (s0, s1) =>
    let wrc := get_array idx Iskel s0 s1
    let centidx := ((s0 - 1) / 2) * s1 + (s1 - 1) / 2
    let comp := sameLabelList wrc.1 centidx
    let growRows := (colsOf wrc.1 comp).elem 1 ||
      (colsOf wrc.1 comp).elem (s0 - 2)
    let growCols := (rowsOf wrc.1 comp).elem 1 ||
      (rowsOf wrc.1 comp).elem (s1 - 2)
    if growRows || growCols then
      bpWindowGrow idx Iskel fuel
        (if growRows then s0 + 4 else s0, if growCols then s1 + 4 else s1)
    else some wrc

/-- The part of `is_bp` (walk.py lines 574-611) that runs on the final
window `W` with offsets `roffset`, `coffset`: crop and blob-filter, accept
trivially when exactly one over-connected pixel remains, otherwise run the
parsimonious selection and test the reglobalised branchpoints for `idx`.
An empty labelled component would make the Python `np.min` raise
(`none` here). -/
def is_bp_from_window (W : Img) (roffset coffset : Nat) (Iskel : Img)
    (idx : Nat) : Option Nat :=
  let centidx := ((W.rows - 1) / 2) * W.cols + (W.cols - 1) / 2
  if sameLabelList W centidx = [] then none
  else if overCount (cleanIc W centidx) W.npix = 1 then some 1
  else
    (isbp_parsimonious W.rows W.cols (cleanIc W centidx)
      (naxes_connectivity (bpKeptImg W centidx))
      (nfour_connectivity (bpKeptImg W centidx))).map fun bps =>
        if (bps.map (fun p =>
            (p / W.cols + roffset) * Iskel.cols + (p % W.cols + coffset))).elem
            idx
        then 1 else 0

/-- Embeds `is_bp` (walk.py lines 521-611), fuelled through the adaptive
window growth: a pixel with fewer than 3 on neighbours is trivially not a
branchpoint; otherwise the final window decides. -/
def is_bp (idx : Nat) (Iskel : Img) : Option Nat :=
  if (onNeighbors Iskel idx).length < 3 then some 0
  else
    (bpWindowGrow idx Iskel (Iskel.npix + 1) (7, 7)).bind fun wrc =>
      is_bp_from_window wrc.1 wrc.2.1 wrc.2.2 Iskel idx

/-- The 3-by-3 window of the C4 witness: centre pixel 4 with three mutually
non-adjacent arms (pixels 1, 6, 8), the only over-connected pixel. -/
def c4Img : Img :=
  ⟨3, 3, [false, true, false, false, true, false, true, false, true]⟩

/-! ## `bp_cluster` (walk.py lines 165-197) -/

mutual

/-- Embeds `bp_cluster` (walk.py lines 165-197), fuelled.  The Python
function mutates the shared cluster list in place and discards the nested
recursive call's return value; since the list is passed by reference the
nested mutations remain visible, which the embedding models by threading the
returned list.  `none` models fuel exhaustion or a classifier failure. -/
def bp_clusterF (I : Img) (fuel : Nat) (bp : List Nat) : Option (List Nat) :=
  match fuel with
  | 0 => none
  | fuel' + 1 => bpLoopF I fuel' (walkable_neighbors bp I) bp
termination_by (fuel, 0, 0)

/-- The `while bp_neighs` loop of `bp_cluster`, fuelled: the Python set pops
are modelled in the order `walkable_neighbors` returns; a pixel that
classifies as a branchpoint and is new is appended and immediately explored
by the nested `bp_cluster` self-call. -/
def bpLoopF (I : Img) (fuel : Nat) (todo : List Nat) (bp : List Nat) :
    Option (List Nat) :=
  match todo with
  | [] => some bp
  | b :: rest =>
    (is_bp b I).bind fun r =>
      if r = 1 then
        if b ∈ bp then bpLoopF I fuel rest bp
        else
          (bp_clusterF I fuel (bp ++ [b])).bind fun bp2 =>
            bpLoopF I fuel rest bp2
      else bpLoopF I fuel rest bp
termination_by (fuel, 1, todo.length)

end

/-- Closure of a pixel's neighbourhood inside a cluster list: every on
neighbour that classifies as a branchpoint already belongs to the list. -/
def nbClosed (I : Img) (p : Nat) (r : List Nat) : Prop :=
  ∀ n ∈ onNeighbors I p, is_bp n I = some 1 → n ∈ r

/-! ## `cant_walk` (walk.py lines 251-303) -/

/-- The body of the `for cl in connlinks` loop of `cant_walk` (walk.py lines
294-301): look up the link with id `cl`, and union into `walked` its chain
minus the last pixel when its first pixel equals the origin pixel (a link
walked away from the node) or its chain minus the first pixel otherwise (a
link that entered the node).  Python evaluates `links['idx'][templinkidx][0]`
in the branch condition, so an empty chain raises in both branches (`none`
here). -/
def cantWalkStep (links : Links) (origin : Nat) (walked : List Nat)
    (cl : Nat) : Option (List Nat) :=
  (pyIndex links.id cl).bind fun templinkidx =>
    (links.idx.get? templinkidx).bind fun tchain =>
      (tchain.get? 0).bind fun t0 =>
        if t0 = origin then some (sunion (toSet tchain.dropLast) walked)
        else some (sunion (toSet (tchain.drop 1)) walked)

/-- Embeds `cant_walk` (walk.py lines 251-303), fuelled through
`bp_cluster`: starting from the branchpoint cluster of the first pixel of
the link at position `linkidx`, union in the walkable neighbours of every
cluster pixel, then fold `cantWalkStep` over the links incident on the
origin node.  Python's fallible indexing and `list.index` are `none`. -/
def cant_walk (links : Links) (linkidx : Nat) (nodes : Nodes) (Iskel : Img) :
    Option (List Nat) :=
  (links.idx.get? linkidx).bind fun chain =>
    (chain.get? 0).bind fun origin =>
      (bp_clusterF Iskel (Iskel.npix + 1) [origin]).bind fun bps =>
        (pyIndex nodes.idx origin).bind fun nodepos =>
          (nodes.conn.get? nodepos).bind fun connlinks =>
            connlinks.foldlM (cantWalkStep links origin)
              (bps.foldr
                (fun bp acc => sunion (walkable_neighbors [bp] Iskel) acc)
                (toSet bps))

/-- The exclusion set as claim C5 words it: the origin branchpoint cluster,
the walkable neighbours of every cluster pixel, and the full pixel chains of
every OTHER link whose first pixel is the origin pixel (walked away from the
node); links that entered the node from elsewhere contribute nothing.
Written from the claim's words, to be compared with `cant_walk`, which is
written from the source. -/
def cant_walk_claimed (links : Links) (linkidx : Nat) (nodes : Nodes)
    (Iskel : Img) : Option (List Nat) :=
  (links.idx.get? linkidx).bind fun chain =>
    (chain.get? 0).bind fun origin =>
      (bp_clusterF Iskel (Iskel.npix + 1) [origin]).bind fun bps =>
        (pyIndex nodes.idx origin).bind fun nodepos =>
          (nodes.conn.get? nodepos).bind fun connlinks =>
            connlinks.foldlM
              (fun walked cl =>
                (pyIndex links.id cl).bind fun templinkidx =>
                  (links.idx.get? templinkidx).bind fun tchain =>
                    (tchain.get? 0).bind fun t0 =>
                      if templinkidx ≠ linkidx ∧ t0 = origin then
                        some (sunion (toSet tchain) walked)
                      else some walked)
              (bps.foldr
                (fun bp acc => sunion (walkable_neighbors [bp] Iskel) acc)
                (toSet bps))

/-- The 7-by-7 skeleton of the C5 counterexample: a straight horizontal
path 22-23-24-25-26 on row 3. -/
def c5Img : Img :=
  ⟨7, 7, (List.range 49).map (fun p => [22, 23, 24, 25, 26].elem p)⟩

/-- Links of the C5 counterexample: link 1 (chain `[25, 26]`) was walked
away from node pixel 25, link 2 (chain `[22, 23, 24, 25]`) entered that
node from pixel 22. -/
def c5Links : Links := ⟨[1, 2], [[25, 26], [22, 23, 24, 25]], [[0], [0]]⟩

/-- Nodes of the C5 counterexample: the single node at pixel 25 with both
links incident. -/
def c5Nodes : Nodes := ⟨[25], [[1, 2]]⟩

/-! ## `handle_bp` (walk.py lines 16-162) -/

/-- Modelled from the spec: `ln_utils.node_updater` as used by `handle_bp`
("connect `linkId` to that node", §4.6 step 2) — register the node pixel if
it is new and connect the link id to the node's connectivity list. -/
def node_updater (nodes : Nodes) (pix lid : Nat) : Nodes :=
  match pyIndex nodes.idx pix with
  | some ni =>
    ⟨nodes.idx,
     modAt ni (fun c => if lid ∈ c then c else c ++ [lid]) nodes.conn⟩
  | none => ⟨nodes.idx ++ [pix], nodes.conn ++ [[lid]]⟩

/-- Modelled from the spec: `ln_utils.link_updater` as used by `handle_bp`
(create a pending link and record its endpoints, §4.6 steps 2 and 6) —
register the link id if it is new, append the given pixels to its chain,
and append the given node position to its connection pair. -/
def link_updater (links : Links) (lid : Nat) (oidx : Option (List Nat))
    (oconn : Option Nat) : Links :=
  let base := if lid ∈ links.id then links
    else ⟨links.id ++ [lid], links.idx ++ [[]], links.conn ++ [[]]⟩
  match pyIndex base.id lid with
  | none => base
  | some li =>
    let withIdx : Links := match oidx with
      | some ix => ⟨base.id, modAt li (fun c => c ++ ix) base.idx, base.conn⟩
      | none => base
    match oconn with
    | some cn => ⟨withIdx.id, withIdx.idx,
        modAt li (fun c => c ++ [cn]) withIdx.conn⟩
    | none => withIdx

/-- `OrderedSet.add` on the insertion-ordered duplicate-free list model:
append at the end when absent. -/
def osAdd (x : Nat) (s : List Nat) : List Nat := if x ∈ s then s else s ++ [x]

/-- Embeds `find_emanators` (walk.py lines 306-337), fuelled through
`bp_cluster`: the walkable neighbours of every pixel of the branchpoint
cluster of `bpnode`, minus the cluster itself (Python set iteration is
modelled in ascending pixel order). -/
def find_emanators (bpnode : Nat) (Iskel : Img) : Option (List Nat) :=
  (bp_clusterF Iskel (Iskel.npix + 1) [bpnode]).map fun branchpoints =>
    (branchpoints.foldr
      (fun bp acc => sunion (walkable_neighbors [bp] Iskel) acc) []).filter
      fun e => !branchpoints.elem e

/-- Absolute pixel-index difference, the `abs(b - emanators)` of
`handle_bp`. -/
def adist (a b : Nat) : Nat := Int.natAbs ((a : Int) - (b : Int))

/-- The `isdone` scan of `handle_bp` (walk.py lines 135-140 and 151-156):
some link already registered on the node has the candidate pair as its
last-two-pixel set.  A connected link id missing from the link collection
makes Python's `list.index` raise (`none` here). -/
def isdoneCheck (links : Links) (donelinks : List Nat) (p : Nat × Nat) :
    Option Bool :=
  donelinks.foldlM
    (fun acc dl => (chainOf links dl).map
      fun tch => acc || eqAsSets (lastTwo tch) [p.1, p.2]) false

/-- One iteration of the emanator-issuing loops of `handle_bp` (walk.py
lines 133-146 and 149-162), shared by the 4-connected and the diagonal
pass: skip the pair when a registered link already covers it, otherwise
mint the id `max(links.id) + 1`, enqueue it, connect the branchpoint node
and create the two-pixel chain. -/
def issueLink (st : Links × Nodes × List Nat) (p : Nat × Nat) :
    Option (Links × Nodes × List Nat) :=
  (pyIndex st.2.1.idx p.1).bind fun nodeidx =>
    (st.2.1.conn.get? nodeidx).bind fun donelinks =>
      (isdoneCheck st.1 donelinks p).bind fun isdone =>
        if isdone then some st
        else
          (pyIndex (node_updater st.2.1 p.1 (listMax st.1.id + 1)).idx
              p.1).map fun np =>
            (link_updater st.1 (listMax st.1.id + 1) (some [p.1, p.2])
               (some np),
             node_updater st.2.1 p.1 (listMax st.1.id + 1),
             osAdd (listMax st.1.id + 1) st.2.2)

/-- One iteration of the adjacent-branchpoint pair loop of `handle_bp`
(walk.py lines 119-124): mint a fresh id, connect both cluster pixels as
nodes and create the two-pixel link between them. -/
def pairLink (st : Links × Nodes) (p : Nat × Nat) :
    Option (Links × Nodes) :=
  (pyIndex (node_updater (node_updater st.2 p.1 (listMax st.1.id + 1)) p.2
      (listMax st.1.id + 1)).idx p.1).bind fun n1 =>
    (pyIndex (node_updater (node_updater st.2 p.1 (listMax st.1.id + 1)) p.2
        (listMax st.1.id + 1)).idx p.2).map fun n2 =>
      (link_updater
         (link_updater st.1 (listMax st.1.id + 1) (some [p.1, p.2])
           (some n1))
         (listMax st.1.id + 1) none (some n2),
       node_updater (node_updater st.2 p.1 (listMax st.1.id + 1)) p.2
         (listMax st.1.id + 1))

/-- Embeds `handle_bp` (walk.py lines 16-162), fuelled through
`bp_cluster`: remove the link from the pending set, register the
branchpoint node and the link's connection to it, and — unless the node was
already registered — resolve the cluster, split its emanators into
4-connected and diagonal ones (minus the cluster and the current chain),
link adjacent branchpoint pairs (pairs normalised ascending and deduped,
standing for Python's order-losing set-of-tuples), then issue the
4-connected emanator links and only afterwards the diagonal ones.
Python's fallible `remove` / `index` / `max` sites are `none`. -/
def handle_bp (linkid bpnode : Nat) (nodes : Nodes) (links : Links)
    (links2do : List Nat) (Iskel : Img) :
    Option (Links × Nodes × List Nat) :=
  if linkid ∈ links2do then
    (pyIndex links.id linkid).bind fun linkidx =>
      (pyIndex (node_updater nodes bpnode linkid).idx bpnode).bind fun bpos =>
        if bpnode ∈ nodes.idx then
          some (link_updater links linkid none (some bpos),
                node_updater nodes bpnode linkid, links2do.erase linkid)
        else
          (bp_clusterF Iskel (Iskel.npix + 1) [bpnode]).bind fun bps =>
            (find_emanators bpnode Iskel).bind fun allem =>
              ((link_updater links linkid none (some bpos)).idx.get?
                  linkidx).bind fun chain =>
                let em1 := allem.filter fun e =>
                  !bps.elem e && !chain.elem e
                let fourconn := bps.bind fun b =>
                  (em1.filter fun e =>
                    (adist b e == 1) || (adist b e == Iskel.cols)).map
                    fun e => (b, e)
                let em2 := em1.filter fun e =>
                  !(fourconn.map Prod.snd).elem e
                let diagconn := bps.bind fun b =>
                  (em2.filter fun e =>
                    (adist b e == Iskel.cols + 1) ||
                    (adist b e == Iskel.cols - 1)).map fun e => (b, e)
                let bpPairs := (bps.bind fun b =>
                  (bps.filter fun bb =>
                    (walkable_neighbors [b] Iskel).elem bb).map fun bb =>
                      if b ≤ bb then (b, bb) else (bb, b)).dedup
                (bpPairs.foldlM pairLink
                    (link_updater links linkid none (some bpos),
                     node_updater nodes bpnode linkid)).bind fun ln2 =>
                  (fourconn.foldlM issueLink
                      (ln2.1, ln2.2, links2do.erase linkid)).bind fun st3 =>
                    diagconn.foldlM issueLink st3
  else none

/-- The 7-by-7 skeleton of the C8 witness: chain 22-23-24 enters pixel 24,
which has a 4-connected emanator at 25 and a diagonal emanator at 32. -/
def c8Img : Img :=
  ⟨7, 7, (List.range 49).map (fun p => [22, 23, 24, 25, 32].elem p)⟩

/-- Links of the C7 and C8 witnesses: the single link 1 being walked, with
chain 22-23-24 originating at node pixel 22. -/
def c8Links : Links := ⟨[1], [[22, 23, 24]], [[0]]⟩

/-- Nodes of the C8 witness: only the origin node at pixel 22; the
branchpoint 24 is not yet registered. -/
def c8Nodes : Nodes := ⟨[22], [[1]]⟩

/-- Nodes of the C7 witness: the branchpoint 24 is already registered, so
`handle_bp` must take the short-circuit branch. -/
def c7Nodes : Nodes := ⟨[22, 24], [[1], []]⟩

end RivGraph

/-! # Theorems -/

namespace RivGraph

/-! ## Helper lemmas about `listMax`, `listMin`, `argmaxList` -/

theorem le_listMax {l : List Nat} {a : Nat} (h : a ∈ l) : a ≤ listMax l := by
  induction l with
  | nil => cases h
  | cons x xs ih =>
    rcases List.mem_cons.mp h with rfl | h'
    · exact le_max_left _ _
    · exact le_trans (ih h') (le_max_right _ _)

theorem listMax_mem {l : List Nat} (h : l ≠ []) : listMax l ∈ l := by
  induction l with
  | nil => exact absurd rfl h
  | cons x xs ih =>
    by_cases hxs : xs = []
    · subst hxs; simp [listMax]
    · have hx : listMax (x :: xs) = max x (listMax xs) := rfl
      rcases max_choice x (listMax xs) with hmax | hmax
      · rw [hx, hmax]; exact List.mem_cons_self _ _
      · rw [hx, hmax]; exact List.mem_cons_of_mem _ (ih hxs)

theorem listMin_step (x y : Nat) (ys : List Nat) :
    listMin (x :: y :: ys) = min y (listMin (x :: ys)) := rfl

theorem listMin_mem {l : List Nat} (h : l ≠ []) : listMin l ∈ l := by
  match l with
  | [] => exact absurd rfl h
  | x :: xs =>
    clear h
    induction xs generalizing x with
    | nil => simp [listMin]
    | cons y ys ih =>
      rw [listMin_step]
      rcases min_choice y (listMin (x :: ys)) with hm | hm
      · rw [hm]; simp
      · rw [hm]
        rcases List.mem_cons.mp (ih x) with h1 | h1
        · simp [h1]
        · simp [List.mem_cons_of_mem, h1]

theorem listMin_le {l : List Nat} {a : Nat} (h : a ∈ l) : listMin l ≤ a := by
  match l with
  | [] => cases h
  | x :: xs =>
    induction xs generalizing x with
    | nil => simp at h; simp [listMin, h]
    | cons y ys ih =>
      rw [listMin_step]
      rcases List.mem_cons.mp h with rfl | h'
      · exact le_trans (min_le_right _ _) (ih _ (List.mem_cons_self _ _))
      · rcases List.mem_cons.mp h' with rfl | h''
        · exact min_le_left _ _
        · exact le_trans (min_le_right _ _)
            (ih _ (List.mem_cons_of_mem _ h''))

theorem mem_argmaxList {l : List Nat} {f : Nat → Nat} {x : Nat} :
    x ∈ argmaxList l f ↔ x ∈ l ∧ ∀ y ∈ l, f y ≤ f x := by
  unfold argmaxList
  rw [List.mem_filter]
  constructor
  · rintro ⟨hx, hmax⟩
    refine ⟨hx, fun y hy => ?_⟩
    have : f x = listMax (l.map f) := beq_iff_eq.mp hmax
    rw [this]
    exact le_listMax (List.mem_map_of_mem f hy)
  · rintro ⟨hx, hub⟩
    refine ⟨hx, ?_⟩
    have h1 : f x ≤ listMax (l.map f) := le_listMax (List.mem_map_of_mem f hx)
    have h2 : listMax (l.map f) ≤ f x := by
      have hne : l.map f ≠ [] := by
        intro hcon
        rw [List.map_eq_nil_iff] at hcon
        subst hcon; cases hx
      rcases List.mem_map.mp (listMax_mem hne) with ⟨y, hy, hyeq⟩
      exact hyeq ▸ hub y hy
    exact beq_iff_eq.mpr (le_antisymm h1 h2)

theorem argmaxList_ne_nil {l : List Nat} {f : Nat → Nat} (h : l ≠ []) :
    argmaxList l f ≠ [] := by
  intro hcon
  have hne : l.map f ≠ [] := by
    intro hc; rw [List.map_eq_nil_iff] at hc; exact h hc
  rcases List.mem_map.mp (listMax_mem hne) with ⟨y, hy, hyeq⟩
  have : y ∈ argmaxList l f := by
    rw [mem_argmaxList]
    exact ⟨hy, fun z hz => hyeq ▸ le_listMax (List.mem_map_of_mem f hz)⟩
  rw [hcon] at this
  cases this

theorem argmaxList_eq_singleton {l : List Nat} {f : Nat → Nat} {u : Nat}
    (hnd : l.Nodup) (hu : u ∈ l) (hub : ∀ x ∈ l, f x ≤ f u)
    (huniq : ∀ x ∈ l, f x = f u → x = u) :
    argmaxList l f = [u] := by
  have hmem : ∀ x, x ∈ argmaxList l f ↔ x = u := by
    intro x
    rw [mem_argmaxList]
    constructor
    · rintro ⟨hx, hxmax⟩
      exact huniq x hx (le_antisymm (hub x hx) (hxmax u hu))
    · rintro rfl
      exact ⟨hu, hub⟩
  have hnd' : (argmaxList l f).Nodup := List.Nodup.filter _ hnd
  have hne : argmaxList l f ≠ [] := by
    intro hcon
    have := (hmem u).mpr rfl
    rw [hcon] at this; cases this
  match hl : argmaxList l f with
  | [] => exact absurd hl hne
  | [a] =>
    have : a = u := (hmem a).mp (hl ▸ List.mem_cons_self _ _)
    rw [this]
  | a :: b :: rest =>
    have ha : a = u := (hmem a).mp (hl ▸ List.mem_cons_self _ _)
    have hb : b = u := (hmem b).mp (hl ▸ List.mem_cons_of_mem _ (List.mem_cons_self _ _))
    rw [hl] at hnd'
    rcases List.nodup_cons.mp hnd' with ⟨hnab, _⟩
    exact absurd (ha.trans hb.symm) (by intro hc; exact hnab (hc ▸ List.mem_cons_self _ _))

theorem argmaxList_two_le_length {l : List Nat} {f : Nat → Nat} {a b : Nat}
    (hnd : l.Nodup) (ha : a ∈ l) (hb : b ∈ l) (hne : a ≠ b)
    (hub : ∀ x ∈ l, f x ≤ f a) (htie : f b = f a) :
    2 ≤ (argmaxList l f).length := by
  have hma : a ∈ argmaxList l f := mem_argmaxList.mpr ⟨ha, hub⟩
  have hmb : b ∈ argmaxList l f := mem_argmaxList.mpr ⟨hb, fun y hy => htie ▸ hub y hy⟩
  have hnd' : (argmaxList l f).Nodup := List.Nodup.filter _ hnd
  match hl : argmaxList l f with
  | [] => rw [hl] at hma; cases hma
  | [x] =>
    rw [hl] at hma hmb
    simp at hma hmb
    exact absurd (hma.trans hmb.symm) hne
  | x :: y :: rest => simp

/-! ## C1: `idcs_no_turnaround` -/

/-- C1 (code_bug evidence): for the displacement `idxdif == 1` (the chain
moved one pixel leftward, one of the eight directional cases), the source
returns the offset list `[-ncols-1, -1, -ncols-1]`, whose first and third
entries coincide.  At `ncols = 5` with last-two indices `[12, 11]` the
function yields `[5, 10, 5]`: only two distinct next-step indices, not the
three the claim (and the function's own docstring) promise.  A symmetric
rightward displacement `[11, 12]` by contrast yields three distinct
indices. -/
theorem idcs_no_turnaround_left_case_duplicate :
    idcs_no_turnaround [12, 11] 5 = some [5, 10, 5] ∧
    (idcs_no_turnaround [12, 11] 5).map (fun l => l.dedup.length) = some 2 ∧
    (idcs_no_turnaround [11, 12] 5).map (fun l => l.dedup.length) = some 3 := by
  decide

/-! ## C2: singleton disambiguation in `isbp_parsimonious` -/

/-- C2 counterexample: with singleton candidates `[0, 1, 2]`, naxes image
`[2, 2, 1]` and nfour image `[1, 0, 4]`, the source block selects pixel `2` —
the unique global nfour maximiser — even though pixel `2` does not attain the
maximal naxes (candidates `0` and `1` do).  The claimed rule (nfour compared
only within the max-naxes ties) would select pixel `0`. -/
theorem singleton_pick_not_within_maxnax :
    singleton_pick [0, 1, 2] c2Inar c2Infr = 2 ∧
    singleton_pick_claimed [0, 1, 2] c2Inar c2Infr = 0 ∧
    c2Inar 2 < c2Inar 0 := by
  decide

/-- C2 (amended): the singleton-candidate disambiguation of
`isbp_parsimonious` selects, in order: (a) the unique candidate attaining the
highest naxes, if one exists; (b) otherwise the unique candidate attaining
the highest nfour over ALL singleton candidates, if one exists — even when it
does not attain the maximal naxes; (c) otherwise the smallest-index candidate
among those attaining the highest nfour within the max-naxes candidates. -/
theorem singleton_pick_amended_rule (bpsolo : List Nat) (inar infr : Nat → Nat)
    (hne : bpsolo ≠ []) (hnd : bpsolo.Nodup) :
    (∀ u, u ∈ bpsolo → (∀ x ∈ bpsolo, inar x ≤ inar u) →
      (∀ x ∈ bpsolo, inar x = inar u → x = u) →
      singleton_pick bpsolo inar infr = u) ∧
    ((∃ a b, a ∈ bpsolo ∧ b ∈ bpsolo ∧ a ≠ b ∧
        (∀ x ∈ bpsolo, inar x ≤ inar a) ∧ inar b = inar a) →
      ∀ u, u ∈ bpsolo → (∀ x ∈ bpsolo, infr x ≤ infr u) →
        (∀ x ∈ bpsolo, infr x = infr u → x = u) →
        singleton_pick bpsolo inar infr = u) ∧
    ((∃ a b, a ∈ bpsolo ∧ b ∈ bpsolo ∧ a ≠ b ∧
        (∀ x ∈ bpsolo, inar x ≤ inar a) ∧ inar b = inar a) →
     (∃ a b, a ∈ bpsolo ∧ b ∈ bpsolo ∧ a ≠ b ∧
        (∀ x ∈ bpsolo, infr x ≤ infr a) ∧ infr b = infr a) →
      singleton_pick bpsolo inar infr ∈ bpsolo ∧
      (∀ x ∈ bpsolo, inar x ≤ inar (singleton_pick bpsolo inar infr)) ∧
      (∀ x ∈ bpsolo, (∀ y ∈ bpsolo, inar y ≤ inar x) →
        infr x ≤ infr (singleton_pick bpsolo inar infr)) ∧
      (∀ x ∈ bpsolo, (∀ y ∈ bpsolo, inar y ≤ inar x) →
        infr x = infr (singleton_pick bpsolo inar infr) →
        singleton_pick bpsolo inar infr ≤ x)) := by
  refine ⟨?_, ?_, ?_⟩
  · intro u hu hub huniq
    unfold singleton_pick
    rw [argmaxList_eq_singleton hnd hu hub huniq]
    simp
  · rintro ⟨a, b, ha, hb, hab, hub, htie⟩ u hu huub huuniq
    unfold singleton_pick
    have h2 := argmaxList_two_le_length hnd ha hb hab hub htie
    have hne1 : ¬ (argmaxList bpsolo inar).length = 1 := by omega
    rw [if_neg hne1, argmaxList_eq_singleton hnd hu huub huuniq]
    simp
  · rintro ⟨a, b, ha, hb, hab, hub, htie⟩ ⟨c, d, hc, hd, hcd, hcub, hctie⟩
    unfold singleton_pick
    have h2 := argmaxList_two_le_length hnd ha hb hab hub htie
    have hne1 : ¬ (argmaxList bpsolo inar).length = 1 := by omega
    have h2' := argmaxList_two_le_length hnd hc hd hcd hcub hctie
    have hne2 : ¬ (argmaxList bpsolo infr).length = 1 := by omega
    rw [if_neg hne1]
    simp only [if_neg hne2]
    set A := argmaxList bpsolo inar with hA
    have hAne : A ≠ [] := argmaxList_ne_nil hne
    have hCne : argmaxList A infr ≠ [] := argmaxList_ne_nil hAne
    have hpick : listMin (argmaxList A infr) ∈ argmaxList A infr := listMin_mem hCne
    rcases mem_argmaxList.mp hpick with ⟨hpA, hpmax⟩
    rcases mem_argmaxList.mp hpA with ⟨hpsolo, hpnax⟩
    refine ⟨hpsolo, hpnax, ?_, ?_⟩
    · intro x hx hxnax
      have hxA : x ∈ A := mem_argmaxList.mpr ⟨hx, hxnax⟩
      exact hpmax x hxA
    · intro x hx hxnax hxtie
      have hxA : x ∈ A := mem_argmaxList.mpr ⟨hx, hxnax⟩
      have hxC : x ∈ argmaxList A infr := by
        rw [mem_argmaxList]
        exact ⟨hxA, fun y hy => hxtie ▸ hpmax y hy⟩
      exact listMin_le hxC

/-- Witness for C2's amended theorem at a concrete input: a single candidate
`[5]` is its own unique naxes maximiser, so the block returns it. -/
theorem singleton_pick_amended_rule_witness :
    singleton_pick [5] c2Inar c2Infr = 5 := by
  have h := singleton_pick_amended_rule [5] c2Inar c2Infr (by decide) (by decide)
  exact h.1 5 (by decide) (by decide) (by decide)

/-! ## Lemmas about `pyIndex`, `assocAt`, `modAt` -/

theorem pyIndex_of_mem {l : List Nat} {x : Nat} (h : x ∈ l) :
    ∃ i, pyIndex l x = some i := by
  induction l with
  | nil => cases h
  | cons y ys ih =>
    by_cases hyx : y = x
    · exact ⟨0, by simp [pyIndex, hyx]⟩
    · rcases List.mem_cons.mp h with rfl | h'
      · exact absurd rfl hyx
      · rcases ih h' with ⟨i, hi⟩
        exact ⟨i + 1, by simp [pyIndex, hyx, hi]⟩

theorem pyIndex_get? {l : List Nat} {x i : Nat} (h : pyIndex l x = some i) :
    l.get? i = some x := by
  induction l generalizing i with
  | nil => simp [pyIndex] at h
  | cons y ys ih =>
    by_cases hyx : y = x
    · simp [pyIndex, hyx] at h
      subst h; simp [hyx]
    · simp [pyIndex, hyx] at h
      rcases h with ⟨i', hi', rfl⟩
      simpa using ih hi'

theorem pyIndex_lt_length {l : List Nat} {x i : Nat}
    (h : pyIndex l x = some i) : i < l.length := by
  by_contra hcon
  have hnone : l.get? i = none := List.get?_eq_none.mpr (by omega)
  rw [pyIndex_get? h] at hnone
  cases hnone

theorem erase_eq_eraseIdx_pyIndex {l : List Nat} {x i : Nat}
    (h : pyIndex l x = some i) : l.erase x = l.eraseIdx i := by
  induction l generalizing i with
  | nil => simp [pyIndex] at h
  | cons y ys ih =>
    by_cases hyx : y = x
    · simp [pyIndex, hyx] at h
      subst h
      simp [List.erase_cons, hyx]
    · simp [pyIndex, hyx] at h
      rcases h with ⟨i', hi', rfl⟩
      simp [List.erase_cons, hyx]
      exact ih hi'

theorem assocAt_nil_vals (ids : List Nat) (x : Nat) :
    assocAt ids [] x = none := by
  unfold assocAt
  cases pyIndex ids x <;> simp

theorem assocAt_eraseIdx {ids : List Nat} {y i : Nat}
    (h : pyIndex ids y = some i) (vals : List (List Nat)) {x : Nat}
    (hxy : x ≠ y) :
    assocAt (ids.eraseIdx i) (vals.eraseIdx i) x = assocAt ids vals x := by
  induction ids generalizing vals i with
  | nil => simp [pyIndex] at h
  | cons a ids' ih =>
    by_cases hay : a = y
    · simp [pyIndex, hay] at h
      subst h
      have hax : ¬ a = x := by rw [hay]; exact fun hc => hxy hc.symm
      simp only [List.eraseIdx]
      unfold assocAt
      simp only [pyIndex, if_neg hax]
      cases hpj : pyIndex ids' x with
      | none => simp
      | some j =>
        simp only [Option.map_some, Option.bind_some, Option.some_bind]
        cases vals <;> simp
    · simp [pyIndex, hay] at h
      rcases h with ⟨i', hi', rfl⟩
      cases vals with
      | nil => simp [assocAt_nil_vals, List.eraseIdx]
      | cons v vs =>
        simp only [List.eraseIdx]
        by_cases hax : a = x
        · unfold assocAt
          simp [pyIndex, hax]
        · unfold assocAt
          simp only [pyIndex, if_neg hax]
          cases hpj : pyIndex (ids'.eraseIdx i') x with
          | none =>
            have := ih hi' vs
            unfold assocAt at this
            rw [hpj] at this
            cases hpj' : pyIndex ids' x with
            | none => simp
            | some j' =>
              rw [hpj'] at this
              simp at this
              simp [this]
          | some j =>
            have := ih hi' vs
            unfold assocAt at this
            rw [hpj] at this
            cases hpj' : pyIndex ids' x with
            | none => rw [hpj'] at this; simp at this; simp [this]
            | some j' =>
              rw [hpj'] at this
              simp at this ⊢
              exact this

theorem modAt_length (i : Nat) (f : List Nat → List Nat)
    (l : List (List Nat)) : (modAt i f l).length = l.length := by
  induction l generalizing i with
  | nil => simp [modAt]
  | cons c cs ih =>
    cases i with
    | zero => simp [modAt]
    | succ i =>
      simp only [modAt, List.length_cons]
      rw [ih i]

theorem modAt_get?_ne (f : List Nat → List Nat) :
    ∀ (l : List (List Nat)) (i j : Nat), j ≠ i →
      (modAt i f l).get? j = l.get? j := by
  intro l
  induction l with
  | nil => intro i j _; simp [modAt]
  | cons c cs ih =>
    intro i j h
    cases i with
    | zero =>
      cases j with
      | zero => exact absurd rfl h
      | succ j => simp [modAt]
    | succ i =>
      cases j with
      | zero => simp [modAt]
      | succ j =>
        simp only [modAt, List.get?_cons_succ]
        exact ih i j (fun hc => h (by omega))

theorem modAt_get?_eq (f : List Nat → List Nat) :
    ∀ (l : List (List Nat)) (i : Nat),
      (modAt i f l).get? i = (l.get? i).map f := by
  intro l
  induction l with
  | nil => intro i; simp [modAt]
  | cons c cs ih =>
    intro i
    cases i with
    | zero => simp [modAt]
    | succ i =>
      simp only [modAt, List.get?_cons_succ]
      exact ih i

theorem get?_eq_some_getD {l : List (List Nat)} {i : Nat}
    (h : i < l.length) : l.get? i = some (l.getD i []) := by
  induction l generalizing i with
  | nil => simp at h
  | cons c cs ih =>
    cases i with
    | zero => rfl
    | succ i =>
      simp at h
      simpa [List.getD] using ih (by omega)

/-! ## C10: `delete_link` frame conditions -/

/-- C10: under well-formedness of the collections, `delete_link` removes
exactly the deleted link's entries (its id, chain and connection pair) and
removes its id from the connectivity lists of exactly the two nodes of its
connection pair; it removes no node from the node collection and leaves every
other link's chain and connection pair unchanged. -/
theorem delete_link_frame (linkid : Nat) (links : Links) (nodes : Nodes)
    (n1 n2 : Nat)
    (hlen1 : links.idx.length = links.id.length)
    (hlen2 : links.conn.length = links.id.length)
    (hnd : links.id.Nodup)
    (hmem : linkid ∈ links.id)
    (hconn : connOf links linkid = some [n1, n2])
    (hne : n1 ≠ n2)
    (h1 : n1 < nodes.conn.length) (h2 : n2 < nodes.conn.length)
    (hin1 : linkid ∈ nodes.conn.getD n1 [])
    (hin2 : linkid ∈ nodes.conn.getD n2 []) :
    ∃ links' nodes', delete_link linkid links nodes = some (links', nodes') ∧
      linkid ∉ links'.id ∧
      links'.id = links.id.erase linkid ∧
      (∀ lid, lid ≠ linkid → chainOf links' lid = chainOf links lid) ∧
      (∀ lid, lid ≠ linkid → connOf links' lid = connOf links lid) ∧
      nodes'.idx = nodes.idx ∧
      nodes'.conn.length = nodes.conn.length ∧
      (∀ j, j ≠ n1 → j ≠ n2 → nodes'.conn.get? j = nodes.conn.get? j) ∧
      nodes'.conn.get? n1 = some ((nodes.conn.getD n1 []).erase linkid) ∧
      nodes'.conn.get? n2 = some ((nodes.conn.getD n2 []).erase linkid) := by
  rcases pyIndex_of_mem hmem with ⟨lid, hlid⟩
  have hltid : lid < links.id.length := pyIndex_lt_length hlid
  have hlt1 : lid < links.idx.length := hlen1 ▸ hltid
  have hlt2 : lid < links.conn.length := hlen2 ▸ hltid
  have hconnget : links.conn.get? lid = some [n1, n2] := by
    unfold connOf assocAt at hconn
    rw [hlid] at hconn
    simpa using hconn
  have hconngetD : links.conn.getD lid [] = [n1, n2] := by
    rw [get?_eq_some_getD hlt2] at hconnget
    exact Option.some_injective _ hconnget
  -- evaluate the node-connectivity removal loop
  have hg1 : nodes.conn.get? n1 = some (nodes.conn.getD n1 []) :=
    get?_eq_some_getD h1
  have hlen1' : (modAt n1 (fun c => c.erase linkid) nodes.conn).length =
      nodes.conn.length := modAt_length _ _ _
  have hc1n2 : (modAt n1 (fun c => c.erase linkid) nodes.conn).get? n2 =
      nodes.conn.get? n2 := modAt_get?_ne _ _ _ _ hne.symm
  have hg2 : n2 < (modAt n1 (fun c => c.erase linkid) nodes.conn).length := by
    rw [hlen1']; exact h2
  have hc1n2D : (modAt n1 (fun c => c.erase linkid) nodes.conn).getD n2 [] =
      nodes.conn.getD n2 [] := by
    rw [get?_eq_some_getD hg2, get?_eq_some_getD h2] at hc1n2
    exact Option.some_injective _ hc1n2
  have hin2' : linkid ∈ (modAt n1 (fun c => c.erase linkid) nodes.conn).getD
      n2 [] := by rw [hc1n2D]; exact hin2
  have hremove : removeLinkFromNodes [n1, n2] linkid nodes.conn =
      some (modAt n2 (fun c => c.erase linkid)
        (modAt n1 (fun c => c.erase linkid) nodes.conn)) := by
    simp only [removeLinkFromNodes]
    rw [if_pos ⟨h1, hin1⟩, if_pos ⟨hg2, hin2'⟩]
  refine ⟨(⟨links.id.erase linkid, links.idx.eraseIdx lid,
      links.conn.eraseIdx lid⟩ : Links),
    (⟨nodes.idx, modAt n2 (fun c => c.erase linkid)
      (modAt n1 (fun c => c.erase linkid) nodes.conn)⟩ : Nodes),
    ?_, ?_, rfl, ?_, ?_, rfl, ?_, ?_, ?_, ?_⟩
  · unfold delete_link
    rw [hlid, Option.some_bind, if_pos ⟨hlt1, hlt2⟩, hconngetD, hremove]
    rfl
  · intro hc
    exact absurd ((List.Nodup.mem_erase_iff hnd).mp hc).1 (by simp)
  · intro x hx
    show assocAt (links.id.erase linkid) (links.idx.eraseIdx lid) x = _
    rw [erase_eq_eraseIdx_pyIndex hlid]
    exact assocAt_eraseIdx hlid links.idx hx
  · intro x hx
    show assocAt (links.id.erase linkid) (links.conn.eraseIdx lid) x = _
    rw [erase_eq_eraseIdx_pyIndex hlid]
    exact assocAt_eraseIdx hlid links.conn hx
  · show (modAt n2 _ (modAt n1 _ nodes.conn)).length = nodes.conn.length
    rw [modAt_length, hlen1']
  · intro j hj1 hj2
    show (modAt n2 _ (modAt n1 _ nodes.conn)).get? j = nodes.conn.get? j
    rw [modAt_get?_ne _ _ _ _ hj2, modAt_get?_ne _ _ _ _ hj1]
  · show (modAt n2 _ (modAt n1 _ nodes.conn)).get? n1 = _
    rw [modAt_get?_ne _ _ _ _ hne, modAt_get?_eq, hg1]
    rfl
  · show (modAt n2 _ (modAt n1 _ nodes.conn)).get? n2 = _
    rw [modAt_get?_eq, hc1n2, get?_eq_some_getD h2]
    rfl

theorem pyIndex_none_iff {l : List Nat} {x : Nat} :
    pyIndex l x = none ↔ x ∉ l := by
  induction l with
  | nil => simp [pyIndex]
  | cons y ys ih =>
    by_cases hyx : y = x
    · subst hyx; simp [pyIndex]
    · simp [pyIndex, hyx, ih, Ne.symm hyx]

theorem pyIndex_mem {l : List Nat} {x i : Nat} (h : pyIndex l x = some i) :
    x ∈ l := by
  by_contra hc
  rw [← pyIndex_none_iff] at hc
  rw [h] at hc
  cases hc

theorem chainOf_some_mem {links : Links} {x : Nat} {c : List Nat}
    (h : chainOf links x = some c) : x ∈ links.id := by
  unfold chainOf assocAt at h
  cases hpi : pyIndex links.id x with
  | none => rw [hpi] at h; cases h
  | some i => exact pyIndex_mem hpi

theorem chainOf_none_of_not_mem {links : Links} {x : Nat}
    (h : x ∉ links.id) : chainOf links x = none := by
  unfold chainOf assocAt
  rw [pyIndex_none_iff.mpr h]
  rfl

/-- Shape of the link collection returned by a successful `delete_link`,
independently of the node-side hypotheses: the id list loses exactly
`linkid`, every other link keeps its chain and connection pair, and the node
pixel list is untouched. -/
theorem delete_link_links_shape {linkid : Nat} {links : Links} {nodes : Nodes}
    {links' : Links} {nodes' : Nodes}
    (h : delete_link linkid links nodes = some (links', nodes')) :
    links'.id = links.id.erase linkid ∧
    (∀ x, x ≠ linkid → chainOf links' x = chainOf links x) ∧
    (∀ x, x ≠ linkid → connOf links' x = connOf links x) ∧
    nodes'.idx = nodes.idx := by
  unfold delete_link at h
  cases hpi : pyIndex links.id linkid with
  | none => rw [hpi] at h; cases h
  | some lid =>
    rw [hpi, Option.some_bind] at h
    by_cases hguard : lid < links.idx.length ∧ lid < links.conn.length
    · rw [if_pos hguard] at h
      cases hrm : removeLinkFromNodes (links.conn.getD lid []) linkid
          nodes.conn with
      | none => rw [hrm] at h; cases h
      | some conns =>
        rw [hrm] at h
        simp only [Option.map_some'] at h
        injection h with h'
        injection h' with hl hn
        subst hl; subst hn
        refine ⟨rfl, ?_, ?_, rfl⟩
        · intro x hx
          show assocAt (links.id.erase linkid) (links.idx.eraseIdx lid) x = _
          rw [erase_eq_eraseIdx_pyIndex hpi]
          exact assocAt_eraseIdx hpi links.idx hx
        · intro x hx
          show assocAt (links.id.erase linkid) (links.conn.eraseIdx lid) x = _
          rw [erase_eq_eraseIdx_pyIndex hpi]
          exact assocAt_eraseIdx hpi links.conn hx
    · rw [if_neg hguard] at h; cases h

/-- Invariants of the `check_dup_links` deletion loop: ids only disappear,
pending ids only disappear, untouched links keep their chains, and each
candidate is deleted (and de-queued) precisely when its first two pixels
match the current link's terminal pixel set. -/
theorem dupDeleteLoop_spec (link : List Nat) :
    ∀ (cands : List Nat) (lk : Links) (nd : Nodes) (td : List Nat)
      (lk' : Links) (nd' : Nodes) (td' : List Nat),
      dupDeleteLoop link cands lk nd td = some (lk', nd', td') →
      cands.Nodup → lk.id.Nodup → td.Nodup →
      (∀ x, x ∈ lk'.id → x ∈ lk.id) ∧
      (∀ x, x ∉ td → x ∉ td') ∧
      (∀ x, x ∈ lk.id → x ∉ cands →
        x ∈ lk'.id ∧ chainOf lk' x = chainOf lk x) ∧
      (∀ lid ∈ cands, ∃ other, chainOf lk lid = some other ∧
        (eqAsSets (lastTwo link) (firstTwo other) = true →
          lid ∉ lk'.id ∧ lid ∉ td') ∧
        (eqAsSets (lastTwo link) (firstTwo other) = false →
          lid ∈ lk'.id ∧ chainOf lk' lid = chainOf lk lid)) := by
  intro cands
  induction cands with
  | nil =>
    intro lk nd td lk' nd' td' hrun _ _ _
    simp only [dupDeleteLoop] at hrun
    injection hrun with h'
    injection h' with h1 h2
    injection h2 with h2a h2b
    subst h1; subst h2b
    refine ⟨fun x hx => hx, fun x hx => hx, fun x hx _ => ⟨hx, rfl⟩, ?_⟩
    intro lid hlid; cases hlid
  | cons lid0 rest ih =>
    intro lk nd td lk' nd' td' hrun hcnd hlknd htdnd
    rcases List.nodup_cons.mp hcnd with ⟨hlid0rest, hrestnd⟩
    simp only [dupDeleteLoop] at hrun
    cases hchain : chainOf lk lid0 with
    | none => rw [hchain] at hrun; cases hrun
    | some other =>
      rw [hchain, Option.some_bind] at hrun
      have hlid0mem : lid0 ∈ lk.id := chainOf_some_mem hchain
      by_cases hmatch : eqAsSets (lastTwo link) (firstTwo other) = true
      · rw [if_pos hmatch] at hrun
        cases hdel : delete_link lid0 lk nd with
        | none => rw [hdel] at hrun; cases hrun
        | some p =>
          rcases p with ⟨lk1, nd1⟩
          rw [hdel, Option.some_bind] at hrun
          obtain ⟨hshape1, hshape2, -, -⟩ := delete_link_links_shape hdel
          have hlk1nd : lk1.id.Nodup := hshape1 ▸ List.Nodup.erase _ hlknd
          have htd1nd : (td.erase lid0).Nodup := List.Nodup.erase _ htdnd
          obtain ⟨iha, ihb, ihc, ihd⟩ :=
            ih lk1 nd1 (td.erase lid0) lk' nd' td' hrun hrestnd hlk1nd htd1nd
          have hsubset1 : ∀ x, x ∈ lk1.id → x ∈ lk.id := by
            intro x hx
            rw [hshape1] at hx
            exact List.mem_of_mem_erase hx
          have hlid0out : lid0 ∉ lk1.id := by
            rw [hshape1]
            intro hc
            exact absurd ((List.Nodup.mem_erase_iff hlknd).mp hc).1 (by simp)
          constructor
          · intro x hx; exact hsubset1 x (iha x hx)
          constructor
          · intro x hx
            refine ihb x ?_
            intro hc; exact hx (List.mem_of_mem_erase hc)
          constructor
          · intro x hx hxc
            have hxne : x ≠ lid0 := fun hc => hxc (hc ▸ List.mem_cons_self _ _)
            have hxrest : x ∉ rest := fun hc => hxc (List.mem_cons_of_mem _ hc)
            have hx1 : x ∈ lk1.id := by
              rw [hshape1]
              exact (List.Nodup.mem_erase_iff hlknd).mpr ⟨hxne, hx⟩
            obtain ⟨hmem', hchain'⟩ := ihc x hx1 hxrest
            exact ⟨hmem', hchain'.trans (hshape2 x hxne)⟩
          · intro lid hlid
            rcases List.mem_cons.mp hlid with rfl | hlidrest
            · refine ⟨other, hchain, fun _ => ⟨?_, ?_⟩, fun hfalse => ?_⟩
              · intro hc
                exact hlid0out (iha _ hc)
              · have hout : lid ∉ td.erase lid := by
                  intro hc
                  exact absurd ((List.Nodup.mem_erase_iff htdnd).mp hc).1
                    (by simp)
                exact ihb _ hout
              · rw [hfalse] at hmatch; simp at hmatch
            · have hne0 : lid ≠ lid0 := fun hc => hlid0rest (hc ▸ hlidrest)
              obtain ⟨other', hchain', htrue', hfalse'⟩ := ihd lid hlidrest
              rw [hshape2 lid hne0] at hchain'
              refine ⟨other', hchain', htrue', fun hfalse => ?_⟩
              obtain ⟨hm, hc⟩ := hfalse' hfalse
              exact ⟨hm, hc.trans (hshape2 lid hne0)⟩
      · rw [if_neg hmatch] at hrun
        obtain ⟨iha, ihb, ihc, ihd⟩ :=
          ih lk nd td lk' nd' td' hrun hrestnd hlknd htdnd
        refine ⟨iha, ihb, ?_, ?_⟩
        · intro x hx hxc
          exact ihc x hx (fun hc => hxc (List.mem_cons_of_mem _ hc))
        · intro lid hlid
          rcases List.mem_cons.mp hlid with rfl | hlidrest
          · refine ⟨other, hchain, fun htrue => absurd htrue hmatch,
              fun _ => ?_⟩
            exact ihc lid hlid0mem hlid0rest
          · exact ihd lid hlidrest
theorem delete_link_frame_witness :
    ∃ links' nodes', delete_link 7 c10Links c10Nodes = some (links', nodes') ∧
      7 ∉ links'.id ∧
      links'.id = c10Links.id.erase 7 ∧
      (∀ lid, lid ≠ 7 → chainOf links' lid = chainOf c10Links lid) ∧
      (∀ lid, lid ≠ 7 → connOf links' lid = connOf c10Links lid) ∧
      nodes'.idx = c10Nodes.idx ∧
      nodes'.conn.length = c10Nodes.conn.length ∧
      (∀ j, j ≠ 0 → j ≠ 1 → nodes'.conn.get? j = c10Nodes.conn.get? j) ∧
      nodes'.conn.get? 0 = some ((c10Nodes.conn.getD 0 []).erase 7) ∧
      nodes'.conn.get? 1 = some ((c10Nodes.conn.getD 1 []).erase 7) :=
  delete_link_frame 7 c10Links c10Nodes 0 1 (by decide) (by decide) (by decide)
    (by decide) (by decide) (by decide) (by decide) (by decide) (by decide)
    (by decide)

/-! ## C3: `check_dup_links` -/

/-- C3 counterexample: link 2 is incident on the endpoint node of resolved
link 1 and its last-two-pixel set `{6, 7}` equals link 1's last-two-pixel
set, yet `check_dup_links` deletes nothing (the state is returned unchanged):
the source compares the current link's last two pixels with the other link's
FIRST two pixels (`[9, 8]` here), so the claim's deletion criterion is
false. -/
theorem check_dup_links_lastTwo_counterexample :
    check_dup_links 1 c3Links c3Nodes [] = some (c3Links, c3Nodes, []) ∧
    eqAsSets (lastTwo [5, 6, 7]) (lastTwo [9, 8, 6, 7]) = true ∧
    chainOf c3Links 1 = some [5, 6, 7] ∧
    chainOf c3Links 2 = some [9, 8, 6, 7] ∧
    2 ∈ c3Nodes.conn.getD 0 [] ∧ (2 : Nat) ≠ 1 ∧ 2 ∈ c3Links.id := by
  decide

/-- C3 (amended): after link `linkid` resolves its second endpoint,
`check_dup_links` deletes another link incident on that endpoint node if and
only if the other link's FIRST-two-pixel set equals the current link's
last-two-pixel set; the current link itself is kept, a deleted duplicate is
no longer queued, and a surviving candidate keeps its pixel chain. -/
theorem check_dup_links_amended (linkid : Nat) (links : Links) (nodes : Nodes)
    (links2do : List Nat) (lk' : Links) (nd' : Nodes) (td' : List Nat)
    (linkidx lconn : Nat) (link nconn : List Nat)
    (hnd : links.id.Nodup) (htdnd : links2do.Nodup)
    (hlinkidx : pyIndex links.id linkid = some linkidx)
    (hlink : links.idx.get? linkidx = some link)
    (hlconn : (links.conn.getD linkidx []).get? 1 = some lconn)
    (hnconn : nodes.conn.get? lconn = some nconn)
    (hrun : check_dup_links linkid links nodes links2do =
      some (lk', nd', td')) :
    linkid ∈ lk'.id ∧
    ∀ lid, lid ∈ nconn → lid ≠ linkid →
      ∃ other, chainOf links lid = some other ∧
        (lid ∉ lk'.id ↔ eqAsSets (lastTwo link) (firstTwo other) = true) ∧
        (eqAsSets (lastTwo link) (firstTwo other) = true → lid ∉ td') ∧
        (eqAsSets (lastTwo link) (firstTwo other) = false →
          chainOf lk' lid = chainOf links lid) := by
  unfold check_dup_links at hrun
  rw [hlinkidx, Option.some_bind, hlink, Option.some_bind, hlconn,
    Option.some_bind, hnconn, Option.some_bind] at hrun
  by_cases hmemdedup : linkid ∈ nconn.dedup
  case neg => rw [if_neg hmemdedup] at hrun; cases hrun
  rw [if_pos hmemdedup] at hrun
  have hcandnd : (nconn.dedup.erase linkid).Nodup :=
    List.Nodup.erase _ (List.nodup_dedup nconn)
  obtain ⟨iha, ihb, ihc, ihd⟩ :=
    dupDeleteLoop_spec link (nconn.dedup.erase linkid) links nodes links2do
      lk' nd' td' hrun hcandnd hnd htdnd
  have hlinkidmem : linkid ∈ links.id := pyIndex_mem hlinkidx
  have hlinkidnotc : linkid ∉ nconn.dedup.erase linkid := by
    intro hc
    exact absurd ((List.Nodup.mem_erase_iff
      (List.nodup_dedup nconn)).mp hc).1 (by simp)
  refine ⟨(ihc linkid hlinkidmem hlinkidnotc).1, ?_⟩
  intro lid hlid hlidne
  have hlidc : lid ∈ nconn.dedup.erase linkid :=
    (List.Nodup.mem_erase_iff (List.nodup_dedup nconn)).mpr
      ⟨hlidne, List.mem_dedup.mpr hlid⟩
  obtain ⟨other, hchain, htrue, hfalse⟩ := ihd lid hlidc
  refine ⟨other, hchain, ⟨?_, fun h => (htrue h).1⟩,
    fun h => (htrue h).2, fun h => (hfalse h).2⟩
  intro hnotin
  by_contra hc
  have hf : eqAsSets (lastTwo link) (firstTwo other) = false := by
    revert hc
    cases eqAsSets (lastTwo link) (firstTwo other) <;> simp
  exact hnotin (hfalse hf).1

/-- Witness for C3's amended theorem: on a concrete state where pending link 2
starts with the same pixel pair that resolved link 1 ends with, the run keeps
link 1 (and, per the amended rule, deletes link 2). -/
theorem check_dup_links_amended_witness : 1 ∈ cdLinksAfter.id :=
  (check_dup_links_amended 1 c3dLinks c3dNodes [2] cdLinksAfter cdNodesAfter
    [] 0 0 [5, 6, 7] [1, 2] (by decide) (by decide) (by decide) (by decide)
    (by decide) (by decide) (by decide)).1

/-! ## Lemmas about the sorted-set model -/

theorem mem_sinsert {x y : Nat} {l : List Nat} :
    x ∈ sinsert y l ↔ x = y ∨ x ∈ l := by
  induction l with
  | nil => simp [sinsert]
  | cons z zs ih =>
    unfold sinsert
    by_cases h1 : y < z
    · simp [h1]
    · by_cases h2 : y = z
      · subst h2
        simp [h1]
      · simp [h1, h2, ih]
        tauto

theorem mem_sunion {x : Nat} {a b : List Nat} :
    x ∈ sunion a b ↔ x ∈ a ∨ x ∈ b := by
  induction a with
  | nil => simp [sunion]
  | cons y ys ih =>
    show x ∈ sinsert y (sunion ys b) ↔ _
    rw [mem_sinsert]
    rw [show sunion ys b = ys.foldr sinsert b from rfl] at ih
    rw [show (ys.foldr sinsert b : List Nat) = sunion ys b from rfl] at ih
    rw [ih]
    simp [List.mem_cons]
    tauto

theorem mem_toSet {x : Nat} {l : List Nat} : x ∈ toSet l ↔ x ∈ l := by
  induction l with
  | nil => simp [toSet]
  | cons y ys ih =>
    show x ∈ sinsert y (toSet ys) ↔ _
    rw [mem_sinsert, ih]
    simp [List.mem_cons]

/-! ## C9: `isbp_walk_for_bps` never drops a seed -/

theorem walkChain_bpi_mono (I : Img) :
    ∀ (fuel idx : Nat) (st : WalkState) (x : Nat),
      x ∈ st.bpi → x ∈ (walkChain I fuel idx st).bpi := by
  intro fuel
  induction fuel with
  | zero => intro idx st x hx; exact hx
  | succ fuel ih =>
    intro idx st x hx
    unfold walkChain
    split_ifs
    · exact hx
    · exact hx
    · exact ih _ _ x hx
    · exact ih _ _ x (mem_sinsert.mpr (Or.inr hx))

theorem walkOuter_bpi_mono (I : Img) :
    ∀ (fuel : Nat) (st : WalkState) (x : Nat),
      x ∈ st.bpi → x ∈ (walkOuter I fuel st).bpi := by
  intro fuel
  induction fuel with
  | zero => intro st x hx; exact hx
  | succ fuel ih =>
    intro st x hx
    rcases st with ⟨bpi, walked, doF, em⟩
    unfold walkOuter
    cases em with
    | nil => exact hx
    | cons e erest =>
      cases doF with
      | nil => exact ih _ x (walkChain_bpi_mono I _ _ _ x hx)
      | cons d drest => exact ih _ x (walkChain_bpi_mono I _ _ _ x hx)

/-- C9: for every binary sub-image and every seed list, the branchpoint set
returned by `isbp_walk_for_bps` contains every seed — the walk-closure only
ever adds branchpoints and never removes a seed. -/
theorem isbp_walk_for_bps_superset (I : Img) (bpi0 : List Nat) (x : Nat)
    (hx : x ∈ bpi0) : x ∈ isbp_walk_for_bps I bpi0 := by
  unfold isbp_walk_for_bps
  exact walkOuter_bpi_mono I _ _ x (mem_toSet.mpr hx)

/-- Witness for C9 at a concrete seed on the 3-by-3 path raster. -/
theorem isbp_walk_for_bps_superset_witness :
    4 ∈ isbp_walk_for_bps pathImg3 [4] :=
  isbp_walk_for_bps_superset pathImg3 [4] 4 (by decide)

/-! ## Sortedness of the sorted-set model -/

theorem sinsert_sorted {x : Nat} {l : List Nat}
    (h : List.Sorted (· < ·) l) : List.Sorted (· < ·) (sinsert x l) := by
  induction l with
  | nil => simp [sinsert]
  | cons y ys ih =>
    rcases List.sorted_cons.mp h with ⟨hy, hys⟩
    unfold sinsert
    by_cases h1 : x < y
    · rw [if_pos h1]
      refine List.sorted_cons.mpr ⟨?_, h⟩
      intro b hb
      rcases List.mem_cons.mp hb with rfl | hb'
      · exact h1
      · exact lt_trans h1 (hy b hb')
    · rw [if_neg h1]
      by_cases h2 : x = y
      · rw [if_pos h2]; exact h
      · rw [if_neg h2]
        refine List.sorted_cons.mpr ⟨?_, ih hys⟩
        intro b hb
        rcases mem_sinsert.mp hb with rfl | hb'
        · omega
        · exact hy b hb'

theorem toSet_sorted (l : List Nat) : List.Sorted (· < ·) (toSet l) := by
  induction l with
  | nil => simp [toSet]
  | cons y ys ih => exact sinsert_sorted ih

theorem toSet_nodup (l : List Nat) : (toSet l).Nodup :=
  (toSet_sorted l).nodup

/-! ## Closure lemmas -/

theorem growStep_subset {adj : Nat → Nat → Bool} {npix : Nat}
    {l : List Nat} : l ⊆ growStep adj npix l := fun _ hx =>
  List.mem_append_left _ hx

theorem growStep_nodup {adj : Nat → Nat → Bool} {npix : Nat} {l : List Nat}
    (h : l.Nodup) : (growStep adj npix l).Nodup := by
  unfold growStep
  refine List.nodup_append.mpr
    ⟨h, List.Nodup.filter _ (List.nodup_range npix), ?_⟩
  intro a ha hcon
  rcases List.mem_filter.mp hcon with ⟨-, hprop⟩
  simp at hprop
  exact hprop.1 ha

theorem growStep_subset_range {adj : Nat → Nat → Bool} {npix : Nat}
    {l : List Nat} (h : ∀ x ∈ l, x < npix) :
    ∀ x ∈ growStep adj npix l, x < npix := by
  intro x hx
  rcases List.mem_append.mp hx with hx | hx
  · exact h x hx
  · exact List.mem_range.mp (List.mem_filter.mp hx).1

theorem growStep_eq_closed {adj : Nat → Nat → Bool} {npix : Nat}
    {l : List Nat} (heq : growStep adj npix l = l) :
    ∀ a ∈ l, ∀ b, b < npix → adj a b = true → b ∈ l := by
  intro a ha b hb hadj
  by_contra hbl
  have hmem : b ∈ (List.range npix).filter
      (fun b => !l.elem b && l.any (fun a => adj a b)) := by
    refine List.mem_filter.mpr ⟨List.mem_range.mpr hb, ?_⟩
    simp
    exact ⟨hbl, a, ha, hadj⟩
  have hmem' : b ∈ growStep adj npix l := List.mem_append_right _ hmem
  rw [heq] at hmem'
  exact hbl hmem'

theorem growStep_length_lt {adj : Nat → Nat → Bool} {npix : Nat}
    {l : List Nat} (hne : growStep adj npix l ≠ l) :
    l.length < (growStep adj npix l).length := by
  unfold growStep at hne ⊢
  rcases hfilter : (List.range npix).filter
      (fun b => !l.elem b && l.any (fun a => adj a b)) with _ | ⟨c, cs⟩
  · rw [hfilter] at hne; simp at hne
  · simp only [List.length_append, List.length_cons]
    omega

theorem iterGrow_succ_outer (adj : Nat → Nat → Bool) (npix k : Nat)
    (l : List Nat) :
    iterGrow adj npix (k + 1) l = growStep adj npix (iterGrow adj npix k l) :=
  rfl

theorem iterGrow_subset (adj : Nat → Nat → Bool) (npix : Nat) :
    ∀ (k : Nat) (l : List Nat), l ⊆ iterGrow adj npix k l := by
  intro k
  induction k with
  | zero => intro l x hx; exact hx
  | succ k ih => intro l x hx; exact growStep_subset (ih l hx)

theorem iterGrow_nodup (adj : Nat → Nat → Bool) (npix : Nat) :
    ∀ (k : Nat) (l : List Nat), l.Nodup → (iterGrow adj npix k l).Nodup := by
  intro k
  induction k with
  | zero => intro l h; exact h
  | succ k ih => intro l h; exact growStep_nodup (ih l h)

theorem iterGrow_subset_range (adj : Nat → Nat → Bool) (npix : Nat) :
    ∀ (k : Nat) (l : List Nat), (∀ x ∈ l, x < npix) →
      ∀ x ∈ iterGrow adj npix k l, x < npix := by
  intro k
  induction k with
  | zero => intro l h; exact h
  | succ k ih => intro l h; exact growStep_subset_range (ih l h)

theorem iterGrow_fix {adj : Nat → Nat → Bool} {npix : Nat} {l : List Nat}
    (heq : growStep adj npix l = l) :
    ∀ k, iterGrow adj npix k l = l := by
  intro k
  induction k with
  | zero => rfl
  | succ k ih => rw [iterGrow_succ_outer, ih, heq]

theorem iterGrow_reaches_fix (adj : Nat → Nat → Bool) (npix : Nat) :
    ∀ (k : Nat) (l : List Nat),
      (∃ j, j ≤ k ∧
        growStep adj npix (iterGrow adj npix j l) = iterGrow adj npix j l ∧
        iterGrow adj npix k l = iterGrow adj npix j l) ∨
      l.length + k ≤ (iterGrow adj npix k l).length := by
  intro k
  induction k with
  | zero => intro l; right; simp [iterGrow]
  | succ k ih =>
    intro l
    rcases ih l with ⟨j, hj, hfix, hiter⟩ | hlen
    · left
      refine ⟨j, Nat.le_succ_of_le hj, hfix, ?_⟩
      rw [iterGrow_succ_outer, hiter, hfix]
    · by_cases hfix : growStep adj npix (iterGrow adj npix k l) =
        iterGrow adj npix k l
      · left
        exact ⟨k, Nat.le_succ k, hfix, by rw [iterGrow_succ_outer, hfix]⟩
      · right
        have hlt := growStep_length_lt hfix
        rw [iterGrow_succ_outer]
        omega

theorem nodup_lt_length_le {l : List Nat} {npix : Nat} (hnd : l.Nodup)
    (hr : ∀ x ∈ l, x < npix) : l.length ≤ npix := by
  have hsub : l ⊆ List.range npix := fun x hx => List.mem_range.mpr (hr x hx)
  have hle := (hnd.subperm hsub).length_le
  rwa [List.length_range] at hle

theorem closure_closed (adj : Nat → Nat → Bool) (npix : Nat)
    (seed : List Nat) (hseed : ∀ x ∈ seed, x < npix) :
    ∀ a ∈ closure adj npix seed, ∀ b, b < npix → adj a b = true →
      b ∈ closure adj npix seed := by
  have hnd : (toSet seed).Nodup := toSet_nodup seed
  have hrange : ∀ x ∈ toSet seed, x < npix := fun x hx =>
    hseed x (mem_toSet.mp hx)
  rcases iterGrow_reaches_fix adj npix npix (toSet seed) with
    ⟨j, _, hfix, hiter⟩ | hlen
  · unfold closure
    rw [hiter]
    exact growStep_eq_closed hfix
  · have hiternodup : (iterGrow adj npix npix (toSet seed)).Nodup :=
      iterGrow_nodup adj npix npix (toSet seed) hnd
    have hiterrange := iterGrow_subset_range adj npix npix (toSet seed) hrange
    have hbound := nodup_lt_length_le hiternodup hiterrange
    have hl0 : (toSet seed).length = 0 := by omega
    have hl0nil : toSet seed = [] := List.length_eq_zero.mp hl0
    have hfix0 : growStep adj npix ([] : List Nat) = [] := by
      simp [growStep]
    intro a ha
    unfold closure at ha
    rw [hl0nil, iterGrow_fix hfix0] at ha
    cases ha

theorem iterGrow_sound (adj : Nat → Nat → Bool) (npix : Nat) :
    ∀ (k : Nat) (l : List Nat) (a : Nat), a ∈ iterGrow adj npix k l →
      ∃ s ∈ l, Relation.ReflTransGen (fun u v => adj u v = true) s a := by
  intro k
  induction k with
  | zero =>
    intro l a ha
    exact ⟨a, ha, Relation.ReflTransGen.refl⟩
  | succ k ih =>
    intro l a ha
    rw [iterGrow_succ_outer] at ha
    rcases List.mem_append.mp ha with ha | ha
    · exact ih l a ha
    · rcases List.mem_filter.mp ha with ⟨-, hprop⟩
      simp at hprop
      rcases hprop with ⟨-, a', ha', hadj⟩
      rcases ih l a' ha' with ⟨s, hs, hrtg⟩
      exact ⟨s, hs, hrtg.tail hadj⟩

theorem closure_sound {adj : Nat → Nat → Bool} {npix : Nat} {seed : List Nat}
    {a : Nat} (ha : a ∈ closure adj npix seed) :
    ∃ s ∈ seed, Relation.ReflTransGen (fun u v => adj u v = true) s a := by
  rcases iterGrow_sound adj npix npix (toSet seed) a ha with ⟨s, hs, hrtg⟩
  exact ⟨s, mem_toSet.mp hs, hrtg⟩

theorem closure_seed_mem {adj : Nat → Nat → Bool} {npix : Nat}
    {seed : List Nat} {x : Nat} (hx : x ∈ seed) :
    x ∈ closure adj npix seed :=
  iterGrow_subset adj npix npix (toSet seed) (mem_toSet.mpr hx)

theorem closure_complete (adj : Nat → Nat → Bool) (npix : Nat)
    (seed : List Nat) (hseed : ∀ x ∈ seed, x < npix)
    (hbound : ∀ u v, adj u v = true → v < npix) {s a : Nat} (hs : s ∈ seed)
    (hrtg : Relation.ReflTransGen (fun u v => adj u v = true) s a) :
    a ∈ closure adj npix seed := by
  induction hrtg with
  | refl => exact closure_seed_mem hs
  | tail _ hbc ih =>
    exact closure_closed adj npix seed hseed _ ih _ (hbound _ _ hbc) hbc

theorem closure_subset_range (adj : Nat → Nat → Bool) (npix : Nat)
    (seed : List Nat) (hseed : ∀ x ∈ seed, x < npix) :
    ∀ x ∈ closure adj npix seed, x < npix :=
  iterGrow_subset_range adj npix npix (toSet seed)
    (fun x hx => hseed x (mem_toSet.mp hx))

theorem closure_nodup (adj : Nat → Nat → Bool) (npix : Nat)
    (seed : List Nat) : (closure adj npix seed).Nodup :=
  iterGrow_nodup adj npix npix (toSet seed) (toSet_nodup seed)

/-! ## Basic facts about the pipeline images -/

theorem getD_map_range {α : Type} {f : Nat → α} {n p : Nat} {d : α}
    (h : p < n) : ((List.range n).map f).getD p d = f p := by
  rw [List.getD_eq_getD_get?, List.get?_map, List.get?_range h]
  rfl

theorem Img.get_lt {I : Img} {p : Nat} (hdata : I.data.length = I.npix)
    (h : I.get p = true) : p < I.npix := by
  by_contra hc
  have hdef : I.data.getD p false = false :=
    List.getD_eq_default _ _ (by omega)
  unfold Img.get at h
  rw [hdef] at h
  cases h

theorem imConn_on {I : Img} {p : Nat} (h : 2 < imConn I p) :
    I.get p = true := by
  unfold imConn at h
  by_cases hp : I.get p
  · exact hp
  · rw [if_neg hp] at h; omega

theorem cropImg_get (I : Img) (rmin rmax cmin cmax p : Nat)
    (hp : p < I.npix) :
    (cropImg I rmin rmax cmin cmax).get p =
      if p / I.cols < rmin - 1 ∨ rmax + 2 ≤ p / I.cols ∨
         p % I.cols < cmin - 1 ∨ cmax + 2 ≤ p % I.cols then false
      else I.get p := by
  show ((List.range (I.rows * I.cols)).map _).getD p false = _
  exact getD_map_range hp

theorem cropImg_cols (I : Img) (rmin rmax cmin cmax : Nat) :
    (cropImg I rmin rmax cmin cmax).cols = I.cols := rfl

theorem cropImg_npix (I : Img) (rmin rmax cmin cmax : Nat) :
    (cropImg I rmin rmax cmin cmax).npix = I.npix := rfl

theorem adj4_imp_adj8 {cols p q : Nat} (h : adj4 cols p q = true) :
    adj8 cols p q = true := by
  unfold adj4 at h
  unfold adj8
  simp only [Bool.or_eq_true, Bool.and_eq_true, beq_iff_eq] at h
  have hne : p ≠ q := by
    rcases h with ⟨hr, hc⟩ | ⟨hc, hr⟩ <;> (intro hpq; subst hpq; omega)
  simp only [Bool.or_eq_true, Bool.and_eq_true, beq_iff_eq,
    Bool.not_eq_true', beq_eq_false_iff_ne, ne_eq]
  rcases h with ⟨hr, hc⟩ | ⟨hc, hr⟩
  · exact ⟨⟨by tauto, by tauto⟩, hne⟩
  · exact ⟨⟨by tauto, by tauto⟩, hne⟩

theorem bool_eq_of_iff {a b : Bool} (h : a = true ↔ b = true) : a = b := by
  cases a <;> cases b <;> simp_all

theorem adj8_true_symm {cols p q : Nat} (h : adj8 cols p q = true) :
    adj8 cols q p = true := by
  unfold adj8 at h ⊢
  simp only [Bool.and_eq_true, Bool.or_eq_true, beq_iff_eq,
    Bool.not_eq_true', beq_eq_false_iff_ne, ne_eq] at h ⊢
  obtain ⟨⟨hr, hc⟩, hne⟩ := h
  exact ⟨⟨by tauto, by tauto⟩, fun hc' => hne hc'.symm⟩

theorem adj8_symm (cols p q : Nat) : adj8 cols p q = adj8 cols q p :=
  bool_eq_of_iff ⟨fun h => adj8_true_symm h, fun h => adj8_true_symm h⟩

theorem adjOn_symm (I : Img) (p q : Nat) : adjOn I p q = adjOn I q p := by
  unfold adjOn
  rw [adj8_symm]
  cases hp : decide (p < I.npix) <;> cases hq : decide (q < I.npix) <;>
    cases hgp : I.get p <;> cases hgq : I.get q <;> simp

/-! ## C4: the trivial-acceptance branch of `is_bp` -/

theorem cleanIc_gt2 {W : Img} {cent p : Nat} (h : 2 < cleanIc W cent p) :
    blobKeep (bpCropped W cent) p = true ∧ sameLabel W cent p = true ∧
    2 < imConn W p := by
  unfold cleanIc at h
  by_cases hk : blobKeep (bpCropped W cent) p = true
  case neg =>
    rw [Bool.not_eq_true] at hk
    rw [hk] at h
    simp at h
  case pos =>
    rw [hk] at h
    simp only [Bool.not_true, Bool.false_eq_true, if_false] at h
    by_cases hs : sameLabel W cent p = true
    · refine ⟨hk, hs, ?_⟩
      rw [hs] at h
      simpa using h
    · rw [Bool.not_eq_true] at hs
      rw [hs] at h
      by_cases hc : 2 < imConn W p
      · rw [decide_eq_true hc] at h
        simp at h
      · rw [decide_eq_false hc] at h
        simp at h
        exact absurd h hc

theorem sameLabel_mem {W : Img} {cent p : Nat} (hcent : 2 < imConn W cent) :
    sameLabel W cent p = true ↔ p ∈ closure (adjIct W) W.npix [cent] := by
  unfold sameLabel
  rw [if_pos hcent]
  exact List.elem_iff

theorem mem_sameLabelList {W : Img} {cent q : Nat} :
    q ∈ sameLabelList W cent ↔ q < W.npix ∧ sameLabel W cent q = true := by
  unfold sameLabelList
  rw [List.mem_filter, List.mem_range]

theorem cropped_on {W : Img} {cent q : Nat}
    (hq : q ∈ sameLabelList W cent) (hon : W.get q = true) :
    (bpCropped W cent).get q = true := by
  have hqn : q < W.npix := (mem_sameLabelList.mp hq).1
  unfold bpCropped
  rw [cropImg_get _ _ _ _ _ _ hqn]
  have h1 : listMin (rowsOf W (sameLabelList W cent)) ≤ q / W.cols :=
    listMin_le (List.mem_map_of_mem _ hq)
  have h2 : q / W.cols ≤ listMax (rowsOf W (sameLabelList W cent)) :=
    le_listMax (List.mem_map_of_mem _ hq)
  have h3 : listMin (colsOf W (sameLabelList W cent)) ≤ q % W.cols :=
    listMin_le (List.mem_map_of_mem _ hq)
  have h4 : q % W.cols ≤ listMax (colsOf W (sameLabelList W cent)) :=
    le_listMax (List.mem_map_of_mem _ hq)
  rw [if_neg (by omega)]
  exact hon

theorem adjIct_parts {W : Img} {a b : Nat} (h : adjIct W a b = true) :
    b < W.npix ∧ 2 < imConn W a ∧ 2 < imConn W b ∧
    adj4 W.cols a b = true := by
  unfold adjIct at h
  simp only [Bool.and_eq_true, decide_eq_true_eq] at h
  tauto

theorem adjOn_bound {C : Img} {u v : Nat} (h : adjOn C u v = true) :
    v < C.npix := by
  unfold adjOn at h
  simp only [Bool.and_eq_true, decide_eq_true_eq] at h
  tauto

theorem cropImg_data_length (I : Img) (rmin rmax cmin cmax : Nat) :
    (cropImg I rmin rmax cmin cmax).data.length =
    (cropImg I rmin rmax cmin cmax).npix := by
  show ((List.range (I.rows * I.cols)).map _).length = I.rows * I.cols
  rw [List.length_map, List.length_range]

theorem comp8_subset_of_adj {C : Img} {a b : Nat}
    (hadj : adjOn C a b = true) (hbn : b < C.npix) :
    ∀ x ∈ comp8 C a, x ∈ comp8 C b := by
  intro x hx
  rcases closure_sound hx with ⟨s, hs, hrtg⟩
  rw [List.mem_singleton] at hs
  rw [hs] at hrtg
  have hba : adjOn C b a = true := by rw [adjOn_symm]; exact hadj
  have hba' : Relation.ReflTransGen (fun u v => adjOn C u v = true) b a :=
    Relation.ReflTransGen.single hba
  exact closure_complete (adjOn C) C.npix [b]
    (fun y hy => by rw [List.mem_singleton] at hy; subst hy; exact hbn)
    (fun u v h => adjOn_bound h) (List.mem_singleton.mpr rfl)
    (hba'.trans hrtg)

theorem blobKeep_step {C : Img} {a b : Nat}
    (hCd : C.data.length = C.npix)
    (ha : C.get a = true) (hb : C.get b = true)
    (hadj : adj8 C.cols a b = true) :
    blobKeep C a = blobKeep C b := by
  have han : a < C.npix := Img.get_lt hCd ha
  have hbn : b < C.npix := Img.get_lt hCd hb
  have hadjOn : adjOn C a b = true := by
    unfold adjOn
    simp only [Bool.and_eq_true, decide_eq_true_eq]
    exact ⟨⟨⟨⟨han, hbn⟩, ha⟩, hb⟩, hadj⟩
  have hadjOn' : adjOn C b a = true := by rw [adjOn_symm]; exact hadjOn
  have hmemiff : ∀ x, x ∈ comp8 C a ↔ x ∈ comp8 C b := fun x =>
    ⟨fun hx => comp8_subset_of_adj hadjOn hbn x hx,
     fun hx => comp8_subset_of_adj hadjOn' han x hx⟩
  have hperm := (List.perm_ext_iff_of_nodup
    (closure_nodup (adjOn C) C.npix [a])
    (closure_nodup (adjOn C) C.npix [b])).mpr hmemiff
  have hlen : (comp8 C a).length = (comp8 C b).length := hperm.length_eq
  unfold blobKeep
  rw [ha, hb, hlen]

theorem blobKeep_const_on_comp {W : Img} {cent : Nat}
    (hdata : W.data.length = W.npix) (hcent : 2 < imConn W cent)
    (hcentn : cent < W.npix) :
    ∀ p ∈ closure (adjIct W) W.npix [cent],
      blobKeep (bpCropped W cent) p = blobKeep (bpCropped W cent) cent := by
  have hseed : ∀ y ∈ [cent], y < W.npix := by
    intro y hy; rw [List.mem_singleton] at hy; subst hy; exact hcentn
  have hbound : ∀ u v, adjIct W u v = true → v < W.npix :=
    fun u v h => (adjIct_parts h).1
  have hmemcrop : ∀ q, q ∈ closure (adjIct W) W.npix [cent] →
      2 < imConn W q → (bpCropped W cent).get q = true := by
    intro q hq hq2
    refine cropped_on (mem_sameLabelList.mpr
      ⟨closure_subset_range _ _ _ hseed q hq, (sameLabel_mem hcent).mpr hq⟩)
      (imConn_on hq2)
  intro p hp
  rcases closure_sound hp with ⟨s, hs, hrtg⟩
  rw [List.mem_singleton] at hs
  rw [hs] at hrtg
  induction hrtg with
  | refl => rfl
  | tail hab hbc ih =>
    rename_i b c
    obtain ⟨hcn, hb2, hc2, hadj4⟩ := adjIct_parts hbc
    have hbcomp : b ∈ closure (adjIct W) W.npix [cent] :=
      closure_complete (adjIct W) W.npix [cent] hseed hbound
        (List.mem_singleton.mpr rfl) hab
    have hccomp : c ∈ closure (adjIct W) W.npix [cent] :=
      closure_closed (adjIct W) W.npix [cent] hseed b hbcomp c hcn hbc
    have hCb : (bpCropped W cent).get b = true := hmemcrop b hbcomp hb2
    have hCc : (bpCropped W cent).get c = true := hmemcrop c hccomp hc2
    have hstep : blobKeep (bpCropped W cent) b =
        blobKeep (bpCropped W cent) c :=
      blobKeep_step (cropImg_data_length _ _ _ _ _) hCb hCc
        (adj4_imp_adj8 hadj4)
    exact hstep.symm.trans (ih hbcomp)

/-- C4: when the cropped and cleaned local window of `is_bp` contains exactly
one pixel with connectivity greater than 2, that pixel is the window centre
(the pixel under test), so the trivial-acceptance branch fires exactly for
it: `is_bp` returns 1, and no other pixel can be the unique over-connected
survivor. -/
theorem is_bp_unique_overconn (W : Img) (cent : Nat)
    (hcentdef : cent = ((W.rows - 1) / 2) * W.cols + (W.cols - 1) / 2)
    (hdata : W.data.length = W.npix)
    (hcent : 2 < imConn W cent)
    (hbuf : ∀ p ∈ sameLabelList W cent, 1 ≤ p / W.cols ∧ 1 ≤ p % W.cols)
    (hcount : overCount (cleanIc W cent) W.npix = 1) :
    2 < cleanIc W cent cent ∧
    (∀ p, p < W.npix → 2 < cleanIc W cent p → p = cent) ∧
    ∀ (roffset coffset idx : Nat) (Iskel : Img),
      is_bp_from_window W roffset coffset Iskel idx = some 1 := by
  have hcentn : cent < W.npix := Img.get_lt hdata (imConn_on hcent)
  unfold overCount at hcount
  obtain ⟨x, hxfilter⟩ := List.length_eq_one.mp hcount
  have hxmem : x ∈ (List.range W.npix).filter
      (fun p => decide (2 < cleanIc W cent p)) := by
    rw [hxfilter]; exact List.mem_cons_self _ _
  have hx2 : 2 < cleanIc W cent x :=
    of_decide_eq_true (List.mem_filter.mp hxmem).2
  obtain ⟨hkx, hsx, _⟩ := cleanIc_gt2 hx2
  have hxcomp : x ∈ closure (adjIct W) W.npix [cent] :=
    (sameLabel_mem hcent).mp hsx
  have hkeepcent : blobKeep (bpCropped W cent) cent = true := by
    rw [← blobKeep_const_on_comp hdata hcent hcentn x hxcomp]
    exact hkx
  have hslcent : sameLabel W cent cent = true :=
    (sameLabel_mem hcent).mpr (closure_seed_mem (List.mem_singleton.mpr rfl))
  have hcleancent : cleanIc W cent cent = imConn W cent := by
    unfold cleanIc
    rw [hkeepcent, hslcent]
    simp
  have hcc : 2 < cleanIc W cent cent := by rw [hcleancent]; exact hcent
  have hcentfilter : cent ∈ (List.range W.npix).filter
      (fun p => decide (2 < cleanIc W cent p)) :=
    List.mem_filter.mpr ⟨List.mem_range.mpr hcentn, decide_eq_true hcc⟩
  have hcentx : cent = x := by
    rw [hxfilter] at hcentfilter
    simpa using hcentfilter
  refine ⟨hcc, ?_, ?_⟩
  · intro p hpn hp2
    have hpf : p ∈ (List.range W.npix).filter
        (fun p => decide (2 < cleanIc W cent p)) :=
      List.mem_filter.mpr ⟨List.mem_range.mpr hpn, decide_eq_true hp2⟩
    rw [hxfilter] at hpf
    have hpx : p = x := by simpa using hpf
    rw [hpx, ← hcentx]
  · intro roffset coffset idx Iskel
    simp only [is_bp_from_window]
    rw [← hcentdef]
    have hne : sameLabelList W cent ≠ [] :=
      List.ne_nil_of_mem (mem_sameLabelList.mpr ⟨hcentn, hslcent⟩)
    rw [if_neg hne]
    unfold overCount
    rw [hxfilter]
    simp

/-- Witness for C4 on the 3-by-3 window `c4Img`: its centre (pixel 4) is the
unique over-connected pixel after cleanup, and the window is accepted. -/
theorem is_bp_unique_overconn_witness :
    is_bp_from_window c4Img 0 0 c4Img 4 = some 1 :=
  (is_bp_unique_overconn c4Img 4 (by decide) (by decide) (by decide)
    (by decide) (by decide)).2.2 0 0 4 c4Img

/-! ## C6: `bp_cluster` terminates and is closed -/

theorem onNeighbors_lt {I : Img} {p n : Nat} (h : n ∈ onNeighbors I p) :
    n < I.npix := by
  unfold onNeighbors at h
  rcases List.mem_filterMap.mp h with ⟨d, -, hsome⟩
  dsimp only at hsome
  split at hsome
  case isTrue hb =>
    split at hsome
    case isTrue hg =>
      injection hsome with hsome
      obtain ⟨h1, h2, h3, h4⟩ := hb
      have hq : ((p / I.cols : Nat) + d.1 : Int).toNat * I.cols +
          ((p % I.cols : Nat) + d.2 : Int).toNat < I.rows * I.cols := by
        have hlt1 : ((p / I.cols : Nat) + d.1 : Int).toNat + 1 ≤ I.rows := by
          omega
        calc ((p / I.cols : Nat) + d.1 : Int).toNat * I.cols +
            ((p % I.cols : Nat) + d.2 : Int).toNat
            < ((p / I.cols : Nat) + d.1 : Int).toNat * I.cols + I.cols := by
              omega
        _ = (((p / I.cols : Nat) + d.1 : Int).toNat + 1) * I.cols := by ring
        _ ≤ I.rows * I.cols := Nat.mul_le_mul_right _ hlt1
      rw [← hsome]
      exact hq
    case isFalse => cases hsome
  case isFalse => cases hsome

theorem mem_walkable {l : List Nat} {I : Img} {n : Nat} :
    n ∈ walkable_neighbors l I ↔
    n ∈ onNeighbors I (l.getLastD 0) ∧ n ∉ lastTwo l := by
  unfold walkable_neighbors
  rw [List.mem_filter]
  simp [List.elem_iff]

theorem walkable_lt {l : List Nat} {I : Img} {n : Nat}
    (h : n ∈ walkable_neighbors l I) : n < I.npix :=
  onNeighbors_lt (mem_walkable.mp h).1

theorem onNeighbors_on {I : Img} {p n : Nat} (h : n ∈ onNeighbors I p) :
    I.get n = true := by
  unfold onNeighbors at h
  rcases List.mem_filterMap.mp h with ⟨d, -, hsome⟩
  dsimp only at hsome
  split at hsome
  case isTrue =>
    split at hsome
    case isTrue hg =>
      injection hsome with hsome
      rw [← hsome]
      exact hg
    case isFalse => cases hsome
  case isFalse => cases hsome

theorem full_of_length {bp : List Nat} {npix : Nat} (hnd : bp.Nodup)
    (hrange : ∀ x ∈ bp, x < npix) (hlen : npix ≤ bp.length) :
    ∀ x, x < npix → x ∈ bp := by
  intro x hx
  have hsub : bp ⊆ List.range npix := fun y hy =>
    List.mem_range.mpr (hrange y hy)
  have hperm := (hnd.subperm hsub).perm_of_length_le
    (by rw [List.length_range]; exact hlen)
  exact hperm.mem_iff.mpr (List.mem_range.mpr hx)

theorem nbClosed_mono {I : Img} {p : Nat} {r r' : List Nat}
    (hsub : ∀ x ∈ r, x ∈ r') (h : nbClosed I p r) : nbClosed I p r' :=
  fun n hn hbp => hsub n (h n hn hbp)

theorem bpLoopF_spec (I : Img)
    (htotal : ∀ b, b < I.npix → I.get b = true → is_bp b I ≠ none) :
    ∀ fuel todo bp, bp.Nodup → (∀ x ∈ bp, x < I.npix) →
      (∀ x ∈ todo, x < I.npix ∧ I.get x = true) → bp ≠ [] →
      ((I.npix + 1 ≤ fuel + 1 + bp.length →
        ∃ r, bpLoopF I fuel todo bp = some r) ∧
       (∀ r, bpLoopF I fuel todo bp = some r →
        (∃ t, r = bp ++ t) ∧ r.Nodup ∧ (∀ x ∈ r, x < I.npix) ∧
        (∀ n ∈ todo, is_bp n I = some 1 → n ∈ r) ∧
        (∀ p ∈ r, p ∉ bp → nbClosed I p r))) := by
  intro fuel
  induction fuel using Nat.strong_induction_on with
  | _ fuel ihf =>
  intro todo
  induction todo with
  | nil =>
    intro bp hnd hrange _ _
    refine ⟨fun _ => ⟨bp, by simp [bpLoopF]⟩, fun r hr => ?_⟩
    simp only [bpLoopF] at hr
    injection hr with hr
    subst hr
    exact ⟨⟨[], by simp⟩, hnd, hrange,
      fun n hn => absurd hn (List.not_mem_nil n),
      fun p hp hpb => absurd hp hpb⟩
  | cons b rest ihtodo =>
    intro bp hnd hrange htodo hne
    have hbn : b < I.npix := (htodo b (List.mem_cons_self _ _)).1
    have hbon : I.get b = true := (htodo b (List.mem_cons_self _ _)).2
    have hrestn : ∀ x ∈ rest, x < I.npix ∧ I.get x = true :=
      fun x hx => htodo x (List.mem_cons_of_mem _ hx)
    cases hisbp : is_bp b I with
    | none => exact absurd hisbp (htotal b hbn hbon)
    | some v =>
      have hunfold : bpLoopF I fuel (b :: rest) bp =
          (if v = 1 then
            if b ∈ bp then bpLoopF I fuel rest bp
            else (bp_clusterF I fuel (bp ++ [b])).bind fun bp2 =>
              bpLoopF I fuel rest bp2
          else bpLoopF I fuel rest bp) := by
        simp only [bpLoopF, hisbp, Option.some_bind]
      by_cases hv : v = 1
      case neg =>
        rw [if_neg hv] at hunfold
        obtain ⟨hsucc, hprops⟩ := ihtodo bp hnd hrange hrestn hne
        refine ⟨fun hb => ?_, fun r hr => ?_⟩
        · rcases hsucc hb with ⟨r, hr⟩
          exact ⟨r, by rw [hunfold]; exact hr⟩
        · rw [hunfold] at hr
          obtain ⟨hext, hrnd, hrr, hproc, hclosed⟩ := hprops r hr
          refine ⟨hext, hrnd, hrr, ?_, hclosed⟩
          intro n hn hbp1
          rcases List.mem_cons.mp hn with rfl | hn'
          · rw [hisbp] at hbp1
            injection hbp1 with hbp1
            exact absurd hbp1 hv
          · exact hproc n hn' hbp1
      case pos =>
        subst hv
        rw [if_pos rfl] at hunfold
        by_cases hbbp : b ∈ bp
        case pos =>
          rw [if_pos hbbp] at hunfold
          obtain ⟨hsucc, hprops⟩ := ihtodo bp hnd hrange hrestn hne
          refine ⟨fun hbnd => ?_, fun r hr => ?_⟩
          · rcases hsucc hbnd with ⟨r, hr⟩
            exact ⟨r, by rw [hunfold]; exact hr⟩
          · rw [hunfold] at hr
            obtain ⟨hext, hrnd, hrr, hproc, hclosed⟩ := hprops r hr
            refine ⟨hext, hrnd, hrr, ?_, hclosed⟩
            intro n hn hbp1
            rcases List.mem_cons.mp hn with rfl | hn'
            · rcases hext with ⟨t, rfl⟩
              exact List.mem_append_left _ hbbp
            · exact hproc n hn' hbp1
        case neg =>
          rw [if_neg hbbp] at hunfold
          have hnd' : (bp ++ [b]).Nodup := by
            rw [List.nodup_append]
            refine ⟨hnd, List.nodup_singleton b, ?_⟩
            intro x hx hx'
            rw [List.mem_singleton] at hx'
            subst hx'
            exact hbbp hx
          have hrange' : ∀ x ∈ bp ++ [b], x < I.npix := by
            intro x hx
            rcases List.mem_append.mp hx with hx | hx
            · exact hrange x hx
            · rw [List.mem_singleton] at hx; subst hx; exact hbn
          have hne' : bp ++ [b] ≠ [] := by simp
          cases fuel with
          | zero =>
            refine ⟨fun hbnd => ?_, fun r hr => ?_⟩
            · exact absurd (full_of_length hnd hrange (by omega) b hbn) hbbp
            · rw [hunfold] at hr
              simp only [bp_clusterF] at hr
              cases hr
          | succ f' =>
            have hwn : ∀ x ∈ walkable_neighbors (bp ++ [b]) I,
                x < I.npix ∧ I.get x = true :=
              fun x hx =>
                ⟨walkable_lt hx, onNeighbors_on (mem_walkable.mp hx).1⟩
            have hlast : (bp ++ [b]).getLastD 0 = b :=
              List.getLastD_concat _ _ _
            have hculst : bp_clusterF I (f' + 1) (bp ++ [b]) =
                bpLoopF I f' (walkable_neighbors (bp ++ [b]) I)
                  (bp ++ [b]) := by
              simp only [bp_clusterF]
            obtain ⟨hsuccN, hpropsN⟩ :=
              ihf f' (Nat.lt_succ_self f')
                (walkable_neighbors (bp ++ [b]) I) (bp ++ [b]) hnd'
                hrange' hwn hne'
            refine ⟨fun hbnd => ?_, fun r hr => ?_⟩
            · have hb2 : I.npix + 1 ≤ f' + 1 + (bp ++ [b]).length := by
                simp only [List.length_append, List.length_cons,
                  List.length_nil]
                omega
              rcases hsuccN hb2 with ⟨bp2, hbp2⟩
              obtain ⟨hext2, hnd2, hrange2, -, -⟩ := hpropsN bp2 hbp2
              have hne2 : bp2 ≠ [] := by
                rcases hext2 with ⟨t, rfl⟩; simp
              obtain ⟨hsuccR, -⟩ := ihtodo bp2 hnd2 hrange2 hrestn hne2
              have hlen2 : bp.length + 1 ≤ bp2.length := by
                rcases hext2 with ⟨t, rfl⟩
                simp only [List.length_append, List.length_cons,
                  List.length_nil]
                omega
              rcases hsuccR (by omega) with ⟨r, hr⟩
              refine ⟨r, ?_⟩
              rw [hunfold, hculst, hbp2, Option.some_bind]
              exact hr
            · rw [hunfold, hculst] at hr
              cases hbp2m : bpLoopF I f'
                  (walkable_neighbors (bp ++ [b]) I) (bp ++ [b]) with
              | none => rw [hbp2m] at hr; cases hr
              | some bp2 =>
                rw [hbp2m, Option.some_bind] at hr
                obtain ⟨hext2, hnd2, hrange2, hprocN, hclosedN⟩ :=
                  hpropsN bp2 hbp2m
                have hne2 : bp2 ≠ [] := by
                  rcases hext2 with ⟨t, rfl⟩; simp
                obtain ⟨-, hpropsR⟩ := ihtodo bp2 hnd2 hrange2 hrestn hne2
                obtain ⟨hextR, hndR, hrangeR, hprocR, hclosedR⟩ :=
                  hpropsR r hr
                obtain ⟨t2, ht2⟩ := hextR
                obtain ⟨t1, ht1⟩ := hext2
                have hbp2_sub_r : ∀ x ∈ bp2, x ∈ r := by
                  intro x hx
                  rw [ht2]
                  exact List.mem_append_left _ hx
                have hbp'_sub_bp2 : ∀ x ∈ bp ++ [b], x ∈ bp2 := by
                  intro x hx
                  rw [ht1]
                  exact List.mem_append_left _ hx
                have hbmem : b ∈ r :=
                  hbp2_sub_r b (hbp'_sub_bp2 b (by simp))
                refine ⟨?_, hndR, hrangeR, ?_, ?_⟩
                · refine ⟨[b] ++ t1 ++ t2, ?_⟩
                  rw [ht2, ht1]
                  simp
                · intro n hn hbp1
                  rcases List.mem_cons.mp hn with rfl | hn'
                  · exact hbmem
                  · exact hprocR n hn' hbp1
                · intro p hp hpbp
                  by_cases hpb : p = b
                  · rw [hpb]
                    intro n hn hbpn
                    by_cases hnw : n ∈ walkable_neighbors (bp ++ [b]) I
                    · exact hbp2_sub_r n (hprocN n hnw hbpn)
                    · have hnl : n ∈ lastTwo (bp ++ [b]) := by
                        by_contra hnl
                        exact hnw (mem_walkable.mpr
                          ⟨by rw [hlast]; exact hn, hnl⟩)
                      have hnbp' : n ∈ bp ++ [b] :=
                        List.drop_subset _ _ hnl
                      rcases List.mem_append.mp hnbp' with hnbp | hnb
                      · rw [ht2, ht1]
                        simp [hnbp]
                      · rw [List.mem_singleton] at hnb
                        subst hnb
                        exact hbmem
                  · by_cases hpbp2 : p ∈ bp2
                    · have hpnotbp' : p ∉ bp ++ [b] := by
                        intro hc
                        rcases List.mem_append.mp hc with hc | hc
                        · exact hpbp hc
                        · rw [List.mem_singleton] at hc; exact hpb hc
                      exact nbClosed_mono hbp2_sub_r
                        (hclosedN p hpbp2 hpnotbp')
                    · exact hclosedR p hp hpbp2

theorem bp_clusterF_spec (I : Img)
    (htotal : ∀ b, b < I.npix → I.get b = true → is_bp b I ≠ none)
    (fuel : Nat) (bp : List Nat) (hnd : bp.Nodup)
    (hrange : ∀ x ∈ bp, x < I.npix) (hne : bp ≠ []) :
    (I.npix + 1 ≤ fuel + bp.length → ∃ r, bp_clusterF I fuel bp = some r) ∧
    (∀ r, bp_clusterF I fuel bp = some r →
      (∃ t, r = bp ++ t) ∧ r.Nodup ∧ (∀ x ∈ r, x < I.npix) ∧
      (∀ n ∈ walkable_neighbors bp I, is_bp n I = some 1 → n ∈ r) ∧
      (∀ p ∈ r, p ∉ bp → nbClosed I p r)) := by
  cases fuel with
  | zero =>
    refine ⟨fun hb => ?_, fun r hr => ?_⟩
    · exfalso
      have := nodup_lt_length_le hnd hrange
      omega
    · simp only [bp_clusterF] at hr
      cases hr
  | succ f' =>
    have hculst : bp_clusterF I (f' + 1) bp =
        bpLoopF I f' (walkable_neighbors bp I) bp := by
      simp only [bp_clusterF]
    obtain ⟨hsucc, hprops⟩ := bpLoopF_spec I htotal f'
      (walkable_neighbors bp I) bp hnd hrange
      (fun x hx => ⟨walkable_lt hx, onNeighbors_on (mem_walkable.mp hx).1⟩)
      hne
    rw [hculst]
    exact ⟨fun hb => hsucc (by omega), hprops⟩

/-- C6: from a single seed pixel, `bp_cluster` completes within the fuel
bound (given a classifier that returns on every in-range pixel) and returns
a cluster containing the seed that is closed under branchpoint adjacency:
every walkable neighbour of a cluster pixel that the classifier marks as a
branchpoint is itself in the cluster — including branchpoints discovered
inside nested recursive calls, whose list mutations the Python code shares
by aliasing and which the embedding threads explicitly. -/
theorem bp_cluster_terminates_closed (I : Img) (seed : Nat)
    (hseed : seed < I.npix)
    (htotal : ∀ b, b < I.npix → I.get b = true → is_bp b I ≠ none) :
    ∃ r, bp_clusterF I (I.npix + 1) [seed] = some r ∧ seed ∈ r ∧
      ∀ p ∈ r, ∀ n ∈ walkable_neighbors [p] I,
        is_bp n I = some 1 → n ∈ r := by
  obtain ⟨hsucc, hprops⟩ := bp_clusterF_spec I htotal (I.npix + 1) [seed]
    (List.nodup_singleton seed)
    (fun x hx => by rw [List.mem_singleton] at hx; subst hx; exact hseed)
    (by simp)
  rcases hsucc (by simp) with ⟨r, hr⟩
  obtain ⟨hext, -, -, hproc, hclosed⟩ := hprops r hr
  refine ⟨r, hr, ?_, ?_⟩
  · rcases hext with ⟨t, rfl⟩; simp
  · intro p hp n hn hbpn
    by_cases hpseed : p ∈ [seed]
    · rw [List.mem_singleton] at hpseed
      subst hpseed
      exact hproc n hn hbpn
    · have hcn : n ∈ onNeighbors I p := by
        have h1 := (mem_walkable.mp hn).1
        simpa using h1
      exact hclosed p hp hpseed n hcn hbpn

set_option maxRecDepth 40000 in
/-- Witness for C6 on the 3-by-3 path raster from seed pixel 4. -/
theorem bp_cluster_terminates_closed_witness :
    ∃ r, bp_clusterF pathImg3 (pathImg3.npix + 1) [4] = some r ∧ 4 ∈ r ∧
      ∀ p ∈ r, ∀ n ∈ walkable_neighbors [p] pathImg3,
        is_bp n pathImg3 = some 1 → n ∈ r :=
  bp_cluster_terminates_closed pathImg3 4 (by decide) (by decide)

/-! ## Claim C5: cant_walk -/

/-- The branchpoint cluster of the C5 state: seeded at pixel 25, both
walkable neighbours (24 and 26) have fewer than 3 on neighbours and are
rejected, so the cluster stays `[25]`. -/
theorem c5_cluster : bp_clusterF c5Img (c5Img.npix + 1) [25] = some [25] := by
  have hwn : walkable_neighbors [25] c5Img = [24, 26] := by decide
  have h24 : is_bp 24 c5Img = some 0 := by decide
  have h26 : is_bp 26 c5Img = some 0 := by decide
  rw [bp_clusterF, hwn, bpLoopF, h24, Option.some_bind,
    if_neg (by decide : ¬(0 = 1)), bpLoopF, h26, Option.some_bind,
    if_neg (by decide : ¬(0 = 1)), bpLoopF]
/-- Concrete run of `cant_walk` on the C5 state: the entering link's
interior pixel 23 is in the exclusion set. -/
theorem c5_run : cant_walk c5Links 0 c5Nodes c5Img = some [23, 24, 25, 26] := by
  have h1 : c5Links.idx.get? 0 = some [25, 26] := rfl
  have h2 : ([25, 26] : List Nat).get? 0 = some 25 := rfl
  have h3 : pyIndex c5Nodes.idx 25 = some 0 := by decide
  have h4 : c5Nodes.conn.get? 0 = some [1, 2] := rfl
  rw [cant_walk]
  simp only [h1, h2, h3, h4, c5_cluster, Option.some_bind]
  decide

/-- Concrete run of the claim-worded exclusion set on the C5 state: the
entering link contributes nothing, so pixel 23 is absent. -/
theorem c5_run_claimed :
    cant_walk_claimed c5Links 0 c5Nodes c5Img = some [24, 25, 26] := by
  have h1 : c5Links.idx.get? 0 = some [25, 26] := rfl
  have h2 : ([25, 26] : List Nat).get? 0 = some 25 := rfl
  have h3 : pyIndex c5Nodes.idx 25 = some 0 := by decide
  have h4 : c5Nodes.conn.get? 0 = some [1, 2] := rfl
  rw [cant_walk_claimed]
  simp only [h1, h2, h3, h4, c5_cluster, Option.some_bind]
  decide

/-- Membership in the fold that unions the walkable neighbours of every
cluster pixel into an initial set. -/
theorem mem_wnFoldr {Iskel : Img} :
    ∀ (bps init : List Nat) (x : Nat),
      (x ∈ bps.foldr
        (fun bp acc => sunion (walkable_neighbors [bp] Iskel) acc) init ↔
      (∃ bp ∈ bps, x ∈ walkable_neighbors [bp] Iskel) ∨ x ∈ init) := by
  intro bps
  induction bps with
  | nil => intro init x; simp
  | cons b rest ih =>
    intro init x
    rw [List.foldr_cons, mem_sunion, ih]
    constructor
    · rintro (h | ⟨bp, hbp, hx⟩ | h)
      · exact Or.inl ⟨b, List.mem_cons_self b rest, h⟩
      · exact Or.inl ⟨bp, List.mem_cons_of_mem b hbp, hx⟩
      · exact Or.inr h
    · rintro (⟨bp, hbp, hx⟩ | h)
      · rcases List.mem_cons.mp hbp with rfl | hbp2
        · exact Or.inl hx
        · exact Or.inr (Or.inl ⟨bp, hbp2, hx⟩)
      · exact Or.inr (Or.inr h)

/-- Membership in the `for cl in connlinks` fold of `cant_walk`: a pixel is
in the result iff it was already walked or some incident link contributes it
through `cantWalkStep`. -/
theorem cantWalkFold_mem (links : Links) (origin : Nat) :
    ∀ (cls w0 w : List Nat),
      List.foldlM (cantWalkStep links origin) w0 cls = some w →
      ∀ x, (x ∈ w ↔ x ∈ w0 ∨ ∃ cl ∈ cls, ∃ ti tchain t0,
        pyIndex links.id cl = some ti ∧ links.idx.get? ti = some tchain ∧
        tchain.get? 0 = some t0 ∧
        ((t0 = origin ∧ x ∈ tchain.dropLast) ∨
         (t0 ≠ origin ∧ x ∈ tchain.drop 1))) := by
  intro cls
  induction cls with
  | nil =>
    intro w0 w hfold x
    rw [List.foldlM_nil] at hfold
    injection hfold with hfold
    subst hfold
    simp
  | cons cl rest ih =>
    intro w0 w hfold x
    rw [List.foldlM_cons] at hfold
    cases hstep : cantWalkStep links origin w0 cl with
    | none =>
      rw [hstep] at hfold
      simp only [Option.bind_eq_bind, Option.none_bind] at hfold
      cases hfold
    | some w1 =>
      rw [hstep] at hfold
      simp only [Option.bind_eq_bind, Option.some_bind] at hfold
      have hw := ih w1 w hfold x
      rw [cantWalkStep] at hstep
      cases hti : pyIndex links.id cl with
      | none => rw [hti, Option.none_bind] at hstep; cases hstep
      | some ti =>
        rw [hti, Option.some_bind] at hstep
        cases htc : links.idx.get? ti with
        | none => rw [htc, Option.none_bind] at hstep; cases hstep
        | some tchain =>
          rw [htc, Option.some_bind] at hstep
          cases ht0 : tchain.get? 0 with
          | none => rw [ht0, Option.none_bind] at hstep; cases hstep
          | some t0 =>
            rw [ht0, Option.some_bind] at hstep
            by_cases ht0o : t0 = origin
            · rw [if_pos ht0o] at hstep
              injection hstep with hstep
              have hw1 : x ∈ w1 ↔ x ∈ tchain.dropLast ∨ x ∈ w0 := by
                rw [← hstep, mem_sunion, mem_toSet]
              constructor
              · intro hxw
                rcases hw.mp hxw with hx1 | ⟨cl2, hcl2, rest2⟩
                · rcases hw1.mp hx1 with hnew | hw0
                  · exact Or.inr ⟨cl, List.mem_cons_self cl rest, ti, tchain,
                      t0, hti, htc, ht0, Or.inl ⟨ht0o, hnew⟩⟩
                  · exact Or.inl hw0
                · exact Or.inr ⟨cl2, List.mem_cons_of_mem cl hcl2, rest2⟩
              · rintro (hw0 | ⟨cl2, hcl2, ti2, tchain2, t02, hti2, htc2, ht02,
                  hdisj⟩)
                · exact hw.mpr (Or.inl (hw1.mpr (Or.inr hw0)))
                · rcases List.mem_cons.mp hcl2 with rfl | hcl3
                  · rw [hti] at hti2
                    injection hti2 with hti2
                    subst hti2
                    rw [htc] at htc2
                    injection htc2 with htc2
                    subst htc2
                    rw [ht0] at ht02
                    injection ht02 with ht02
                    subst ht02
                    rcases hdisj with ⟨-, hmem⟩ | ⟨hne, -⟩
                    · exact hw.mpr (Or.inl (hw1.mpr (Or.inl hmem)))
                    · exact absurd ht0o hne
                  · exact hw.mpr (Or.inr ⟨cl2, hcl3, ti2, tchain2, t02, hti2,
                      htc2, ht02, hdisj⟩)
            · rw [if_neg ht0o] at hstep
              injection hstep with hstep
              have hw1 : x ∈ w1 ↔ x ∈ tchain.drop 1 ∨ x ∈ w0 := by
                rw [← hstep, mem_sunion, mem_toSet]
              constructor
              · intro hxw
                rcases hw.mp hxw with hx1 | ⟨cl2, hcl2, rest2⟩
                · rcases hw1.mp hx1 with hnew | hw0
                  · exact Or.inr ⟨cl, List.mem_cons_self cl rest, ti, tchain,
                      t0, hti, htc, ht0, Or.inr ⟨ht0o, hnew⟩⟩
                  · exact Or.inl hw0
                · exact Or.inr ⟨cl2, List.mem_cons_of_mem cl hcl2, rest2⟩
              · rintro (hw0 | ⟨cl2, hcl2, ti2, tchain2, t02, hti2, htc2, ht02,
                  hdisj⟩)
                · exact hw.mpr (Or.inl (hw1.mpr (Or.inr hw0)))
                · rcases List.mem_cons.mp hcl2 with rfl | hcl3
                  · rw [hti] at hti2
                    injection hti2 with hti2
                    subst hti2
                    rw [htc] at htc2
                    injection htc2 with htc2
                    subst htc2
                    rw [ht0] at ht02
                    injection ht02 with ht02
                    subst ht02
                    rcases hdisj with ⟨heq, -⟩ | ⟨-, hmem⟩
                    · exact absurd heq ht0o
                    · exact hw.mpr (Or.inl (hw1.mpr (Or.inl hmem)))
                  · exact hw.mpr (Or.inr ⟨cl2, hcl3, ti2, tchain2, t02, hti2,
                      htc2, ht02, hdisj⟩)

/-- Counterexample to C5: on a straight 5-pixel path with link 1 walked
away from node pixel 25 and link 2 entering it, `cant_walk` returns
`[23, 24, 25, 26]` while the claim's union is `[24, 25, 26]` — pixel 23, an
interior pixel of the entering link's chain, is excluded by the source
(walk.py line 301 unions `links['idx'][templinkidx][1:]` for entering links)
but the claim says entering links contribute nothing. -/
theorem cant_walk_entering_link_counterexample :
    cant_walk c5Links 0 c5Nodes c5Img = some [23, 24, 25, 26] ∧
    cant_walk_claimed c5Links 0 c5Nodes c5Img = some [24, 25, 26] ∧
    chainOf c5Links 2 = some [22, 23, 24, 25] ∧
    (23 : Nat) ∈ [23, 24, 25, 26] ∧ (23 : Nat) ∉ [24, 25, 26] :=
  ⟨c5_run, c5_run_claimed, by decide, by decide, by decide⟩

/-- C5, amended: whenever `cant_walk` succeeds, its result is exactly the
union of the origin branchpoint cluster, the walkable neighbours of every
cluster pixel, and — for EVERY link incident on the origin node, the current
link included — the link's chain minus its last pixel when the link's first
pixel is the origin (walked away from the node), or the chain minus its
first pixel when the link entered the node from elsewhere. -/
theorem cant_walk_amended (links : Links) (linkidx : Nat) (nodes : Nodes)
    (Iskel : Img) (chain : List Nat) (origin : Nat) (bps : List Nat)
    (nodepos : Nat) (connlinks : List Nat) (w : List Nat)
    (hchain : links.idx.get? linkidx = some chain)
    (horigin : chain.get? 0 = some origin)
    (hbps : bp_clusterF Iskel (Iskel.npix + 1) [origin] = some bps)
    (hnodepos : pyIndex nodes.idx origin = some nodepos)
    (hconn : nodes.conn.get? nodepos = some connlinks)
    (hrun : cant_walk links linkidx nodes Iskel = some w) :
    ∀ x, (x ∈ w ↔
      x ∈ bps ∨ (∃ bp ∈ bps, x ∈ walkable_neighbors [bp] Iskel) ∨
      ∃ cl ∈ connlinks, ∃ ti tchain t0, pyIndex links.id cl = some ti ∧
        links.idx.get? ti = some tchain ∧ tchain.get? 0 = some t0 ∧
        ((t0 = origin ∧ x ∈ tchain.dropLast) ∨
         (t0 ≠ origin ∧ x ∈ tchain.drop 1))) := by
  intro x
  rw [cant_walk] at hrun
  simp only [hchain, horigin, hbps, hnodepos, hconn, Option.some_bind] at hrun
  rw [cantWalkFold_mem links origin connlinks _ w hrun x, mem_wnFoldr,
    mem_toSet]
  constructor
  · rintro ((hwn | hbps2) | hfold)
    · exact Or.inr (Or.inl hwn)
    · exact Or.inl hbps2
    · exact Or.inr (Or.inr hfold)
  · rintro (hbps2 | hwn | hfold)
    · exact Or.inl (Or.inr hbps2)
    · exact Or.inl (Or.inl hwn)
    · exact Or.inr hfold

/-- Witness for the amended C5 on the counterexample state: pixel 23 of
the exclusion set is accounted for by link 2, which entered the node. -/
theorem cant_walk_amended_witness :
    (23 : Nat) ∈ ([25] : List Nat) ∨
    (∃ bp ∈ ([25] : List Nat), 23 ∈ walkable_neighbors [bp] c5Img) ∨
    ∃ cl ∈ ([1, 2] : List Nat), ∃ ti tchain t0,
      pyIndex c5Links.id cl = some ti ∧ c5Links.idx.get? ti = some tchain ∧
      tchain.get? 0 = some t0 ∧
      ((t0 = 25 ∧ 23 ∈ tchain.dropLast) ∨ (t0 ≠ 25 ∧ 23 ∈ tchain.drop 1)) :=
  (cant_walk_amended c5Links 0 c5Nodes c5Img [25, 26] 25 [25] 0 [1, 2]
    [23, 24, 25, 26] rfl rfl c5_cluster (by decide) rfl c5_run 23).mp
    (by decide)

/-! ## Claims C7 and C8: handle_bp -/

theorem node_updater_found {nodes : Nodes} {pix lid ni : Nat}
    (h : pyIndex nodes.idx pix = some ni) :
    node_updater nodes pix lid =
      ⟨nodes.idx,
       modAt ni (fun c => if lid ∈ c then c else c ++ [lid]) nodes.conn⟩ := by
  rw [node_updater, h]

/-- `node_updater` on an unregistered pixel: node and singleton
connectivity list are appended. -/
theorem node_updater_new {nodes : Nodes} {pix lid : Nat}
    (h : pix ∉ nodes.idx) :
    node_updater nodes pix lid =
      ⟨nodes.idx ++ [pix], nodes.conn ++ [[lid]]⟩ := by
  rw [node_updater, pyIndex_none_iff.mpr h]

/-- `link_updater` with only a connection value on a registered link id:
the id and chain lists are unchanged and the value is appended to the
link's connection pair. -/
theorem link_updater_conn_existing {links : Links} {lid li cn : Nat}
    (h : pyIndex links.id lid = some li) :
    link_updater links lid none (some cn) =
      ⟨links.id, links.idx, modAt li (fun c => c ++ [cn]) links.conn⟩ := by
  have hmem : lid ∈ links.id := pyIndex_mem h
  rw [link_updater]
  simp only [if_pos hmem, h]

/-- C7: invoking `handle_bp` on a branch pixel already registered as a
node takes the short-circuit branch: the link leaves the pending set (and
nothing is added to it), the link id is connected to that node, the node
position is appended to the link's connection pair, and no link id, chain,
node, or other connectivity entry changes. -/
theorem handle_bp_revisited_node (linkid bpnode : Nat) (nodes : Nodes)
    (links : Links) (links2do : List Nat) (Iskel : Img) (np li : Nat)
    (hpend : linkid ∈ links2do)
    (hnp : pyIndex nodes.idx bpnode = some np)
    (hli : pyIndex links.id linkid = some li)
    (hwfn : nodes.conn.length = nodes.idx.length)
    (hwfl : links.conn.length = links.id.length) :
    ∃ links' nodes',
      handle_bp linkid bpnode nodes links links2do Iskel =
        some (links', nodes', links2do.erase linkid) ∧
      links'.id = links.id ∧ links'.idx = links.idx ∧
      nodes'.idx = nodes.idx ∧
      (∃ c, nodes.conn.get? np = some c ∧
        nodes'.conn.get? np =
          some (if linkid ∈ c then c else c ++ [linkid]) ∧
        linkid ∈ (if linkid ∈ c then c else c ++ [linkid])) ∧
      (∀ i, i ≠ np → nodes'.conn.get? i = nodes.conn.get? i) ∧
      (∃ d, links.conn.get? li = some d ∧
        links'.conn.get? li = some (d ++ [np]) ∧ np ∈ d ++ [np]) ∧
      (∀ j, j ≠ li → links'.conn.get? j = links.conn.get? j) := by
  have hmem : bpnode ∈ nodes.idx := pyIndex_mem hnp
  have hnu : node_updater nodes bpnode linkid =
      ⟨nodes.idx,
       modAt np (fun c => if linkid ∈ c then c else c ++ [linkid])
         nodes.conn⟩ := node_updater_found hnp
  have hlu : link_updater links linkid none (some np) =
      ⟨links.id, links.idx, modAt li (fun c => c ++ [np]) links.conn⟩ :=
    link_updater_conn_existing hli
  refine ⟨⟨links.id, links.idx, modAt li (fun c => c ++ [np]) links.conn⟩,
    ⟨nodes.idx,
     modAt np (fun c => if linkid ∈ c then c else c ++ [linkid]) nodes.conn⟩,
    ?_, rfl, rfl, rfl, ?_, ?_, ?_, ?_⟩
  · rw [handle_bp, if_pos hpend, hli, Option.some_bind, hnu]
    have hnp1 : pyIndex
        (Nodes.mk nodes.idx
          (modAt np (fun c => if linkid ∈ c then c else c ++ [linkid])
            nodes.conn)).idx bpnode = some np := hnp
    rw [hnp1, Option.some_bind, if_pos hmem, hlu]
  · have hlt : np < nodes.conn.length := by
      rw [hwfn]; exact pyIndex_lt_length hnp
    refine ⟨nodes.conn.getD np [], get?_eq_some_getD hlt, ?_, ?_⟩
    · show (modAt np _ nodes.conn).get? np = _
      rw [modAt_get?_eq, get?_eq_some_getD hlt, Option.map_some']
    · by_cases hin : linkid ∈ nodes.conn.getD np []
      · rw [if_pos hin]; exact hin
      · rw [if_neg hin]; exact List.mem_append_right _ (by simp)
  · intro i hi
    exact modAt_get?_ne _ nodes.conn np i hi
  · have hlt : li < links.conn.length := by
      rw [hwfl]; exact pyIndex_lt_length hli
    refine ⟨links.conn.getD li [], get?_eq_some_getD hlt, ?_, ?_⟩
    · show (modAt li _ links.conn).get? li = _
      rw [modAt_get?_eq, get?_eq_some_getD hlt, Option.map_some']
    · exact List.mem_append_right _ (by simp)
  · intro j hj
    exact modAt_get?_ne _ links.conn li j hj

/-- Witness for C7: walking link 1 into the already-registered
branchpoint node 24. -/
theorem handle_bp_revisited_node_witness :
    ∃ links' nodes',
      handle_bp 1 24 c7Nodes c8Links [1] c8Img =
        some (links', nodes', List.erase [1] 1) ∧
      links'.id = c8Links.id ∧ links'.idx = c8Links.idx ∧
      nodes'.idx = c7Nodes.idx ∧
      (∃ c, c7Nodes.conn.get? 1 = some c ∧
        nodes'.conn.get? 1 = some (if 1 ∈ c then c else c ++ [1]) ∧
        1 ∈ (if 1 ∈ c then c else c ++ [1])) ∧
      (∀ i, i ≠ 1 → nodes'.conn.get? i = c7Nodes.conn.get? i) ∧
      (∃ d, c8Links.conn.get? 0 = some d ∧
        links'.conn.get? 0 = some (d ++ [1]) ∧ 1 ∈ d ++ [1]) ∧
      (∀ j, j ≠ 0 → links'.conn.get? j = c8Links.conn.get? j) :=
  handle_bp_revisited_node 1 24 c7Nodes c8Links [1] c8Img 1 0 (by decide)
    (by decide) (by decide) (by decide) (by decide)

/-- `list.index` of a freshly appended element. -/
theorem pyIndex_append_self {l : List Nat} {x : Nat} (h : x ∉ l) :
    pyIndex (l ++ [x]) x = some l.length := by
  induction l with
  | nil => simp [pyIndex]
  | cons y ys ih =>
    simp only [List.cons_append, pyIndex, List.append_eq]
    have hyx : y ≠ x := fun he => h (he ▸ List.mem_cons_self y ys)
    rw [if_neg hyx, ih (fun hm => h (List.mem_cons_of_mem y hm))]
    rfl

/-- Appending a different element does not disturb `list.index`. -/
theorem pyIndex_append_ne {l : List Nat} {x y : Nat} (h : x ≠ y) :
    pyIndex (l ++ [y]) x = pyIndex l x := by
  induction l with
  | nil => simp [pyIndex, Ne.symm h]
  | cons z zs ih =>
    simp only [List.cons_append, pyIndex, List.append_eq]
    by_cases hzx : z = x
    · rw [if_pos hzx, if_pos hzx]
    · rw [if_neg hzx, if_neg hzx, ih]

/-- The minted id `max(links.id) + 1` is fresh. -/
theorem listMax_succ_not_mem (l : List Nat) : listMax l + 1 ∉ l :=
  fun h => absurd (le_listMax h) (by omega)

/-- `link_updater` on a fresh id with a chain and a connection value:
the link is appended and both payloads land in its new rows. -/
theorem link_updater_fresh_eq {links : Links} {lid : Nat} {ch : List Nat}
    {cn : Nat} (h : lid ∉ links.id) :
    link_updater links lid (some ch) (some cn) =
      ⟨links.id ++ [lid],
       modAt links.id.length (fun c => c ++ ch) (links.idx ++ [[]]),
       modAt links.id.length (fun c => c ++ [cn]) (links.conn ++ [[]])⟩ := by
  rw [link_updater]
  simp only [if_neg h, pyIndex_append_self h]

/-- Creating a fresh link keeps the id and chain lists aligned. -/
theorem wf_link_updater_fresh {links : Links} {lid : Nat} {ch : List Nat}
    {cn : Nat} (h : lid ∉ links.id)
    (hwf : links.idx.length = links.id.length) :
    (link_updater links lid (some ch) (some cn)).idx.length =
      (link_updater links lid (some ch) (some cn)).id.length := by
  rw [link_updater_fresh_eq h]
  simp [modAt_length, hwf]

/-- A connection-only update leaves every pixel chain untouched. -/
theorem chainOf_link_updater_conn {links : Links} {lid li cn : Nat}
    (h : pyIndex links.id lid = some li) (x : Nat) :
    chainOf (link_updater links lid none (some cn)) x = chainOf links x := by
  rw [link_updater_conn_existing h]
  rfl

/-- The chain recorded for a freshly created link. -/
theorem chainOf_fresh {links : Links} {lid : Nat} {ch : List Nat} {cn : Nat}
    (h : lid ∉ links.id) (hwf : links.idx.length = links.id.length) :
    chainOf (link_updater links lid (some ch) (some cn)) lid = some ch := by
  rw [link_updater_fresh_eq h]
  unfold chainOf assocAt
  dsimp only
  rw [pyIndex_append_self h, Option.some_bind, modAt_get?_eq]
  have hcat : (links.idx ++ [[]] : List (List Nat)).get? links.id.length =
      some [] := by
    rw [← hwf]
    exact List.get?_concat_length _ _
  rw [hcat, Option.map_some']
  rfl

/-- Creating a fresh link preserves the chains of all existing links. -/
theorem chainOf_fresh_other {links : Links} {lid : Nat} {ch : List Nat}
    {cn x : Nat} {c : List Nat} (hfresh : lid ∉ links.id)
    (hwf : links.idx.length = links.id.length)
    (h : chainOf links x = some c) :
    chainOf (link_updater links lid (some ch) (some cn)) x = some c := by
  unfold chainOf assocAt at h
  cases hpi : pyIndex links.id x with
  | none => rw [hpi] at h; cases h
  | some i =>
    rw [hpi, Option.some_bind] at h
    have hxl : x ∈ links.id := pyIndex_mem hpi
    have hxne : x ≠ lid := fun he => hfresh (he ▸ hxl)
    have hilt : i < links.id.length := pyIndex_lt_length hpi
    rw [link_updater_fresh_eq hfresh]
    unfold chainOf assocAt
    dsimp only
    rw [pyIndex_append_ne hxne, hpi, Option.some_bind,
      modAt_get?_ne _ _ _ _ (by omega : i ≠ links.id.length),
      List.get?_append (by omega : i < links.idx.length)]
    exact h

/-- The adjacent-branchpoint pair loop keeps the id and chain lists
aligned. -/
theorem pairFold_wf : ∀ (ps : List (Nat × Nat)) (st st2 : Links × Nodes),
    List.foldlM pairLink st ps = some st2 →
    st.1.idx.length = st.1.id.length →
    st2.1.idx.length = st2.1.id.length := by
  intro ps
  induction ps with
  | nil =>
    intro st st2 hfold hwf
    rw [List.foldlM_nil] at hfold
    injection hfold with hfold
    subst hfold
    exact hwf
  | cons p rest ih =>
    intro st st2 hfold hwf
    rw [List.foldlM_cons] at hfold
    cases hstep : pairLink st p with
    | none =>
      rw [hstep] at hfold
      simp only [Option.bind_eq_bind, Option.none_bind] at hfold
      cases hfold
    | some st1 =>
      rw [hstep] at hfold
      simp only [Option.bind_eq_bind, Option.some_bind] at hfold
      refine ih st1 st2 hfold ?_
      rw [pairLink] at hstep
      rw [Option.bind_eq_some] at hstep
      obtain ⟨n1, hn1, hstep⟩ := hstep
      rw [Option.map_eq_some'] at hstep
      obtain ⟨n2, hn2, hstep⟩ := hstep
      subst hstep
      have hfresh : listMax st.1.id + 1 ∉ st.1.id := listMax_succ_not_mem _
      have hinner : (link_updater st.1 (listMax st.1.id + 1)
            (some [p.1, p.2]) (some n1)).idx.length =
          (link_updater st.1 (listMax st.1.id + 1) (some [p.1, p.2])
            (some n1)).id.length := wf_link_updater_fresh hfresh hwf
      have hmem2 : listMax st.1.id + 1 ∈
          (link_updater st.1 (listMax st.1.id + 1) (some [p.1, p.2])
            (some n1)).id := by
        rw [link_updater_fresh_eq hfresh]
        exact List.mem_append_right _ (by simp)
      obtain ⟨li2, hli2⟩ := pyIndex_of_mem hmem2
      show (link_updater _ _ none (some n2)).idx.length = _
      rw [link_updater_conn_existing hli2]
      exact hinner

/-- The emanator-issuing loop of `handle_bp`: it only appends to the
pending set, preserves every existing chain, and every id it enqueues
carries the two-pixel chain of one of its candidate pairs. -/
theorem issueFold_spec : ∀ (ps : List (Nat × Nat))
    (st st2 : Links × Nodes × List Nat),
    List.foldlM issueLink st ps = some st2 →
    st.1.idx.length = st.1.id.length →
    st2.1.idx.length = st2.1.id.length ∧
    (∀ lid c, chainOf st.1 lid = some c → chainOf st2.1 lid = some c) ∧
    ∃ added, st2.2.2 = st.2.2 ++ added ∧
      ∀ a ∈ added, ∃ p ∈ ps, chainOf st2.1 a = some [p.1, p.2] := by
  intro ps
  induction ps with
  | nil =>
    intro st st2 hfold hwf
    rw [List.foldlM_nil] at hfold
    injection hfold with hfold
    subst hfold
    exact ⟨hwf, fun _ _ h => h, [], by simp, by simp⟩
  | cons p rest ih =>
    intro st st2 hfold hwf
    rw [List.foldlM_cons] at hfold
    cases hstep : issueLink st p with
    | none =>
      rw [hstep] at hfold
      simp only [Option.bind_eq_bind, Option.none_bind] at hfold
      cases hfold
    | some st1 =>
      rw [hstep] at hfold
      simp only [Option.bind_eq_bind, Option.some_bind] at hfold
      rw [issueLink] at hstep
      rw [Option.bind_eq_some] at hstep
      obtain ⟨nodeidx, hni, hstep⟩ := hstep
      rw [Option.bind_eq_some] at hstep
      obtain ⟨donelinks, hdl, hstep⟩ := hstep
      rw [Option.bind_eq_some] at hstep
      obtain ⟨isdone, hid, hstep⟩ := hstep
      by_cases hdone : isdone = true
      · rw [hdone, if_pos rfl] at hstep
        injection hstep with hstep
        subst hstep
        obtain ⟨hwf2, hpres, added, hD, hchains⟩ := ih _ st2 hfold hwf
        exact ⟨hwf2, hpres, added, hD, fun a ha =>
          (hchains a ha).imp fun q hq =>
            ⟨List.mem_cons_of_mem p hq.1, hq.2⟩⟩
      · rw [Bool.not_eq_true] at hdone
        rw [hdone, if_neg (by simp)] at hstep
        rw [Option.map_eq_some'] at hstep
        obtain ⟨np, hnp, hstep⟩ := hstep
        subst hstep
        have hfresh : listMax st.1.id + 1 ∉ st.1.id := listMax_succ_not_mem _
        have hwf1 : (link_updater st.1 (listMax st.1.id + 1)
              (some [p.1, p.2]) (some np)).idx.length =
            (link_updater st.1 (listMax st.1.id + 1) (some [p.1, p.2])
              (some np)).id.length := wf_link_updater_fresh hfresh hwf
        obtain ⟨hwf2, hpres, added, hD, hchains⟩ := ih _ st2 hfold hwf1
        have hpres1 : ∀ lid c, chainOf st.1 lid = some c →
            chainOf st2.1 lid = some c := fun lid c hc =>
          hpres lid c (chainOf_fresh_other hfresh hwf hc)
        have hnew : chainOf st2.1 (listMax st.1.id + 1) =
            some [p.1, p.2] :=
          hpres _ _ (chainOf_fresh hfresh hwf)
        refine ⟨hwf2, hpres1, ?_⟩
        dsimp only at hD
        by_cases hlD : listMax st.1.id + 1 ∈ st.2.2
        · rw [osAdd, if_pos hlD] at hD
          exact ⟨added, hD, fun a ha => (hchains a ha).imp fun q hq =>
            ⟨List.mem_cons_of_mem p hq.1, hq.2⟩⟩
        · rw [osAdd, if_neg hlD, List.append_assoc,
            List.singleton_append] at hD
          refine ⟨(listMax st.1.id + 1) :: added, hD, ?_⟩
          intro a ha
          rcases List.mem_cons.mp ha with rfl | ha2
          · exact ⟨p, List.mem_cons_self p rest, hnew⟩
          · exact (hchains a ha2).imp fun q hq =>
              ⟨List.mem_cons_of_mem p hq.1, hq.2⟩

/-- C8: when `handle_bp` resolves a new branchpoint cluster, the pending
set it returns is the old pending set (minus the entering link) followed by
the ids issued for 4-connected emanator pairs followed by the ids issued
for diagonal emanator pairs — so every new pending link whose first step is
4-connected sits before every new pending link whose first step is
diagonal, and the recorded two-pixel chains certify the class of each. -/
theorem handle_bp_fourconn_first (linkid bpnode : Nat) (nodes : Nodes)
    (links : Links) (links2do : List Nat) (Iskel : Img)
    (links2 : Links) (nodes2 : Nodes) (l2d2 : List Nat)
    (hnew : bpnode ∉ nodes.idx)
    (hwfl : links.idx.length = links.id.length)
    (hrun : handle_bp linkid bpnode nodes links links2do Iskel =
      some (links2, nodes2, l2d2)) :
    ∃ four diag : List Nat,
      l2d2 = links2do.erase linkid ++ four ++ diag ∧
      (∀ a ∈ four, ∃ b e, chainOf links2 a = some [b, e] ∧
        (adist b e = 1 ∨ adist b e = Iskel.cols)) ∧
      (∀ a ∈ diag, ∃ b e, chainOf links2 a = some [b, e] ∧
        (adist b e = Iskel.cols + 1 ∨ adist b e = Iskel.cols - 1)) := by
  rw [handle_bp] at hrun
  by_cases hpend : linkid ∈ links2do
  swap
  · rw [if_neg hpend] at hrun; cases hrun
  rw [if_pos hpend] at hrun
  simp only [hnew, if_false, Option.bind_eq_some] at hrun
  obtain ⟨li, hli, bpos, hbpos, bps, hbps, allem, hallem, chain, hchain,
    ln2, hpf, st3, h4, h5⟩ := hrun
  have hwf1 : (link_updater links linkid none (some bpos)).idx.length =
      (link_updater links linkid none (some bpos)).id.length := by
    rw [link_updater_conn_existing hli]
    exact hwfl
  have hwf2 := pairFold_wf _ _ _ hpf hwf1
  obtain ⟨hwf3, hpres4, four, hD3, h4chains⟩ := issueFold_spec _ _ _ h4 hwf2
  obtain ⟨hwf4, hpres5, diag, hD4, h5chains⟩ := issueFold_spec _ _ _ h5 hwf3
  dsimp only at hD3 hD4
  refine ⟨four, diag, ?_, ?_, ?_⟩
  · rw [hD4, hD3]
  · intro a ha
    obtain ⟨p, hp, hchainp⟩ := h4chains a ha
    have hchainp2 : chainOf links2 a = some [p.1, p.2] :=
      hpres5 _ _ hchainp
    rw [List.mem_bind] at hp
    obtain ⟨b, hb, hpm⟩ := hp
    rw [List.mem_map] at hpm
    obtain ⟨e, hef, hpe⟩ := hpm
    rw [List.mem_filter] at hef
    have hcond := hef.2
    rw [Bool.or_eq_true, beq_iff_eq, beq_iff_eq] at hcond
    subst hpe
    exact ⟨b, e, hchainp2, hcond⟩
  · intro a ha
    obtain ⟨p, hp, hchainp⟩ := h5chains a ha
    rw [List.mem_bind] at hp
    obtain ⟨b, hb, hpm⟩ := hp
    rw [List.mem_map] at hpm
    obtain ⟨e, hef, hpe⟩ := hpm
    rw [List.mem_filter] at hef
    have hcond := hef.2
    rw [Bool.or_eq_true, beq_iff_eq, beq_iff_eq] at hcond
    subst hpe
    exact ⟨b, e, hchainp, hcond⟩

/-- The branchpoint cluster of the C8 state: the three walkable
neighbours of pixel 24 are rejected by the classifier, so the cluster stays
`[24]`. -/
theorem c8_cluster : bp_clusterF c8Img (c8Img.npix + 1) [24] = some [24] := by
  have hwn : walkable_neighbors [24] c8Img = [23, 25, 32] := by decide
  have h23 : is_bp 23 c8Img = some 0 := by decide
  have h25 : is_bp 25 c8Img = some 0 := by decide
  have h32 : is_bp 32 c8Img = some 0 := by decide
  rw [bp_clusterF, hwn, bpLoopF, h23, Option.some_bind,
    if_neg (by decide : ¬(0 = 1)), bpLoopF, h25, Option.some_bind,
    if_neg (by decide : ¬(0 = 1)), bpLoopF, h32, Option.some_bind,
    if_neg (by decide : ¬(0 = 1)), bpLoopF]

/-- The emanators of the C8 state. -/
theorem c8_em : find_emanators 24 c8Img = some [23, 25, 32] := by
  rw [find_emanators, c8_cluster, Option.map_some']
  decide

/-- Concrete run of `handle_bp` on the C8 state: link 2 (4-connected
chain `[24, 25]`) is enqueued before link 3 (diagonal chain `[24, 32]`). -/
theorem c8_run : handle_bp 1 24 c8Nodes c8Links [1] c8Img =
    some (⟨[1, 2, 3], [[22, 23, 24], [24, 25], [24, 32]],
           [[0, 1], [1], [1]]⟩,
          ⟨[22, 24], [[1], [1, 2, 3]]⟩, [2, 3]) := by
  rw [handle_bp, c8_cluster, c8_em]
  decide

/-- Witness for C8 on the concrete state: the returned pending set
decomposes as `[] ++ four ++ diag` with the 4-connected block first. -/
theorem handle_bp_fourconn_first_witness :
    ∃ four diag : List Nat,
      [2, 3] = List.erase [1] 1 ++ four ++ diag ∧
      (∀ a ∈ four, ∃ b e,
        chainOf ⟨[1, 2, 3], [[22, 23, 24], [24, 25], [24, 32]],
          [[0, 1], [1], [1]]⟩ a = some [b, e] ∧
        (adist b e = 1 ∨ adist b e = c8Img.cols)) ∧
      (∀ a ∈ diag, ∃ b e,
        chainOf ⟨[1, 2, 3], [[22, 23, 24], [24, 25], [24, 32]],
          [[0, 1], [1], [1]]⟩ a = some [b, e] ∧
        (adist b e = c8Img.cols + 1 ∨ adist b e = c8Img.cols - 1)) :=
  handle_bp_fourconn_first 1 24 c8Nodes c8Links [1] c8Img
    ⟨[1, 2, 3], [[22, 23, 24], [24, 25], [24, 32]], [[0, 1], [1], [1]]⟩
    ⟨[22, 24], [[1], [1, 2, 3]]⟩ [2, 3] (by decide) (by decide) c8_run

end RivGraph
